import Mathlib

/-!
Verification of the goldie-mcp indexing and retrieval engine.

Shallow embedding of the Go sources:
  internal/goldie/goldie.go  (chunker and indexer)
  internal/store/store.go    (document, vector and job store over SQLite)
  internal/queue/queue.go    (single-worker job queue)
  main.go                    (tool handlers)

Texts are modelled as lists of characters, one list element per byte of
the Go string (all lengths in the source are byte lengths). Embedding
vectors are modelled as lists of integers: the claims under study only
depend on the presence and length of a vector, never on the float values,
so the scalar type is irrelevant. The SQLite tables are modelled as
association lists inside a `StoreState`; SQL timestamps are modelled by a
logical clock `now` that is bumped by every write.
-/

/-! ## Chunker (internal/goldie/goldie.go, chunkText and helpers) -/

/-- Character class used by strings.TrimSpace: the Latin-1 white space
runes recognised by unicode.IsSpace. (The claims never depend on which
characters count as spaces, only that trimming removes characters.) -/
def isGoSpace (c : Char) : Bool :=
  c = ' ' || c = '\t' || c = '\n' || c = '\x0b' || c = '\x0c' || c = '\r' ||
  c = '\x85' || c = '\xa0'

/-- Model of strings.TrimSpace: drop white space from both ends. -/
def trimSpace (l : List Char) : List Char :=
  ((l.dropWhile isGoSpace).reverse.dropWhile isGoSpace).reverse

/-- Go slice text[s:e] (the flow of chunkText keeps s ≤ e ≤ len). -/
def listSlice (l : List Char) (s e : Nat) : List Char :=
  (l.drop s).take (e - s)

/-- Model of strings.LastIndex(slice, " "): index of the last space of the
slice, `none` standing for the Go return value -1. -/
def lastSpaceIdx (l : List Char) : Option Nat :=
  match l.reverse.findIdx? (fun c => c = ' ') with
  | none => none
  | some k => some (l.length - 1 - k)

/-- End position of the chunk that starts at `start` (goldie.go:550-559):
`end := min(start+S, len)`, then, when end is strictly inside the text and
the last space of text[start:end] lies past S/2, break at that space.
The Go comparison `lastSpace > S/2` is false for the -1 (no space) case,
which the `none` branch mirrors. -/
def chunkBreakEnd (S : Nat) (text : List Char) (start : Nat) : Nat :=
  let e0 := min (start + S) text.length
  if e0 < text.length then
    match lastSpaceIdx (listSlice text start e0) with
    | some j => if S / 2 < j then start + j else e0
    | none => e0
  else e0

/-- Cursor advance (goldie.go:566-574): `newStart := end - O`; if that
does not move past `start`, force `newStart = end`. Subtraction is the
truncated Nat subtraction: in Go a negative `end - O` is ≤ start and so
is forced to `end` by the same test, and the final `newStart < 0` clamp
of the source is unreachable. -/
def chunkNextStart (O : Nat) (start e : Nat) : Nat :=
  if e - O ≤ start then e else e - O

/-- Main loop of chunkText (goldie.go:542-581), fuel-indexed. One fuel
unit is one loop iteration; `chunkLoopF_fuel_irrelevant` below shows that
any fuel above the loop measure gives the same answer, so the artificial
fuel-exhaustion branch (returning the chunks collected so far) is never
taken from `chunkText`. `prev = none` stands for the initial
`prevStart = -1`. Chunks are accumulated in reverse (the source appends;
prepending keeps the model linear) and reversed on every exit. -/
def chunkLoopF (S O : Nat) (text : List Char) :
    Nat → Nat → Option Nat → List (List Char) → List (List Char)
  | 0, _, _, acc => acc.reverse
  | fuel + 1, start, prev, acc =>
    if start < text.length then
      if prev = some start then acc.reverse
      else
        let e := chunkBreakEnd S text start
        let chunk := trimSpace (listSlice text start e)
        let acc' := if 0 < chunk.length then chunk :: acc else acc
        if 10000 < acc'.length then acc'.reverse
        else chunkLoopF S O text fuel (chunkNextStart O start e) (some start) acc'
    else acc.reverse

/-- Model of Goldie.chunkText (goldie.go:533-584) with chunk size S and
chunk overlap O. -/
def chunkText (S O : Nat) (text : List Char) : List (List Char) :=
  if text.length ≤ S then [text]
  else chunkLoopF S O text (2 * text.length + 2) 0 none []

/-! ## Basic chunker lemmas -/

theorem trimSpace_length_le (l : List Char) : (trimSpace l).length ≤ l.length := by
  unfold trimSpace
  calc ((l.dropWhile isGoSpace).reverse.dropWhile isGoSpace).reverse.length
      = ((l.dropWhile isGoSpace).reverse.dropWhile isGoSpace).length := by
        simp
    _ ≤ (l.dropWhile isGoSpace).reverse.length :=
        ((l.dropWhile isGoSpace).reverse.dropWhile_sublist isGoSpace).length_le
    _ = (l.dropWhile isGoSpace).length := by simp
    _ ≤ l.length := (l.dropWhile_sublist isGoSpace).length_le

theorem listSlice_length_le (l : List Char) (s e : Nat) :
    (listSlice l s e).length ≤ e - s := by
  unfold listSlice
  simp [Nat.min_le_left]

theorem lastSpaceIdx_lt_length {l : List Char} {j : Nat}
    (h : lastSpaceIdx l = some j) : j < l.length := by
  unfold lastSpaceIdx at h
  cases hfind : l.reverse.findIdx? (fun c => c = ' ') with
  | none => rw [hfind] at h; exact absurd h (by simp)
  | some k =>
    rw [hfind] at h
    have hne : l ≠ [] := by
      rintro rfl
      simp at hfind
    have hpos : 0 < l.length := List.length_pos.mpr hne
    have : l.length - 1 - k = j := by injection h
    omega

theorem chunkBreakEnd_ge {text : List Char} {start : Nat} (S : Nat)
    (h : start < text.length) : start ≤ chunkBreakEnd S text start := by
  unfold chunkBreakEnd
  simp only []
  split
  · cases hfind : lastSpaceIdx (listSlice text start (min (start + S) text.length)) with
    | none => simp [hfind]; omega
    | some j => simp [hfind]; split <;> omega
  · omega

theorem chunkBreakEnd_sub_le (S : Nat) (text : List Char) (start : Nat) :
    chunkBreakEnd S text start - start ≤ S := by
  unfold chunkBreakEnd
  simp only []
  split
  · cases hfind : lastSpaceIdx (listSlice text start (min (start + S) text.length)) with
    | none => simp [hfind]; omega
    | some j =>
      have hj := lastSpaceIdx_lt_length hfind
      have hsl := listSlice_length_le text start (min (start + S) text.length)
      simp [hfind]
      split <;> omega
  · omega

theorem chunkBreakEnd_gt {S : Nat} {text : List Char} {start : Nat}
    (hS : 0 < S) (h : start < text.length) : start < chunkBreakEnd S text start := by
  unfold chunkBreakEnd
  simp only []
  split
  · cases hfind : lastSpaceIdx (listSlice text start (min (start + S) text.length)) with
    | none => simp [hfind]; omega
    | some j => simp [hfind]; split <;> omega
  · omega

theorem chunkNextStart_ge {start e : Nat} (O : Nat) (h : start ≤ e) :
    start ≤ chunkNextStart O start e := by
  unfold chunkNextStart; split <;> omega

theorem chunkNextStart_gt {start e : Nat} (O : Nat) (h : start < e) :
    start < chunkNextStart O start e := by
  unfold chunkNextStart; split <;> omega

theorem chunkNextStart_forced {O start e : Nat} (h : e - O ≤ start) :
    chunkNextStart O start e = e := by
  unfold chunkNextStart; exact if_pos h

/-- Loop measure for chunkText: twice the remaining text plus one when the
previous-start guard has not yet fired at the current position. -/
def chunkMeasure (len start : Nat) (prev : Option Nat) : Nat :=
  2 * (len - start) + (if prev = some start then 0 else 1)

theorem chunkLoopF_succ (S O : Nat) (text : List Char) (fuel start : Nat)
    (prev : Option Nat) (acc : List (List Char)) :
    chunkLoopF S O text (fuel + 1) start prev acc =
      if start < text.length then
        if prev = some start then acc.reverse
        else
          let e := chunkBreakEnd S text start
          let chunk := trimSpace (listSlice text start e)
          let acc' := if 0 < chunk.length then chunk :: acc else acc
          if 10000 < acc'.length then acc'.reverse
          else chunkLoopF S O text fuel (chunkNextStart O start e) (some start) acc'
      else acc.reverse := rfl

theorem chunkMeasure_decreases {S O : Nat} {text : List Char} {start : Nat}
    {prev : Option Nat} (hlt : start < text.length) (hprev : prev ≠ some start) :
    chunkMeasure text.length
        (chunkNextStart O start (chunkBreakEnd S text start)) (some start) <
      chunkMeasure text.length start prev := by
  have h1 : start ≤ chunkBreakEnd S text start := chunkBreakEnd_ge S hlt
  have h2 : start ≤ chunkNextStart O start (chunkBreakEnd S text start) :=
    chunkNextStart_ge O h1
  unfold chunkMeasure
  rcases Nat.eq_or_lt_of_le h2 with heq | hgt
  · rw [if_neg hprev, if_pos (congrArg some heq)]
    omega
  · have hb : (if (some start : Option Nat) =
        some (chunkNextStart O start (chunkBreakEnd S text start)) then 0 else 1) ≤ 1 := by
      split <;> omega
    rw [if_neg hprev]
    omega

theorem chunkLoopF_fuel_irrelevant (S O : Nat) (text : List Char) :
    ∀ fuel₁ fuel₂ start prev acc,
      chunkMeasure text.length start prev < fuel₁ →
      chunkMeasure text.length start prev < fuel₂ →
      chunkLoopF S O text fuel₁ start prev acc = chunkLoopF S O text fuel₂ start prev acc := by
  intro fuel₁
  induction fuel₁ with
  | zero => intro fuel₂ start prev acc h1 _; omega
  | succ f ih =>
    intro fuel₂ start prev acc h1 h2
    cases fuel₂ with
    | zero => omega
    | succ g =>
      rw [chunkLoopF_succ, chunkLoopF_succ]
      by_cases hlt : start < text.length
      · rw [if_pos hlt, if_pos hlt]
        by_cases hprev : prev = some start
        · rw [if_pos hprev, if_pos hprev]
        · rw [if_neg hprev, if_neg hprev]
          simp only []
          have hdec := @chunkMeasure_decreases S O text start prev hlt hprev
          split
          all_goals
            split
            · rfl
            · exact ih g _ _ _ (by omega) (by omega)
      · rw [if_neg hlt, if_neg hlt]

/-! ## Chunk output structure (claim C1) -/

/-- A chunk as a function of its source span: the source emits
`trim(text[start:end])`. -/
def chunkOf (text : List Char) (p : Nat × Nat) : List Char :=
  trimSpace (listSlice text p.1 p.2)

theorem chunkLoopF_spans (S O : Nat) (text : List Char) :
    ∀ fuel start prev acc (spans : List (Nat × Nat)),
      acc = (spans.map (chunkOf text)).reverse →
      spans.Pairwise (fun p q => p.1 < q.1) →
      (∀ p ∈ spans, p.1 < start) →
      (∀ p ∈ spans, p.2 - p.1 ≤ S) →
      acc.length ≤ 10000 →
      ∃ spans' : List (Nat × Nat),
        chunkLoopF S O text fuel start prev acc = spans'.map (chunkOf text) ∧
        spans'.Pairwise (fun p q => p.1 < q.1) ∧
        (∀ p ∈ spans', p.2 - p.1 ≤ S) ∧
        spans'.length ≤ 10001 := by
  intro fuel
  induction fuel with
  | zero =>
    intro start prev acc spans hacc hpw _ hspan hlen
    refine ⟨spans, by simp [chunkLoopF, hacc], hpw, hspan, ?_⟩
    have : acc.length = spans.length := by simp [hacc]
    omega
  | succ f ih =>
    intro start prev acc spans hacc hpw hstart hspan hlen
    rw [chunkLoopF_succ]
    by_cases hsl : start < text.length
    · rw [if_pos hsl]
      by_cases hprev : prev = some start
      · rw [if_pos hprev]
        refine ⟨spans, by simp [hacc], hpw, hspan, ?_⟩
        have : acc.length = spans.length := by simp [hacc]
        omega
      · rw [if_neg hprev]
        simp only []
        have hge : start ≤ chunkBreakEnd S text start := chunkBreakEnd_ge S hsl
        have hns : start ≤ chunkNextStart O start (chunkBreakEnd S text start) :=
          chunkNextStart_ge O hge
        by_cases hchunk : 0 < (trimSpace (listSlice text start (chunkBreakEnd S text start))).length
        · rw [if_pos hchunk]
          -- the emitted chunk is nonempty, so the span is and the cursor advances
          have hlt : start < chunkBreakEnd S text start := by
            have h1 := trimSpace_length_le (listSlice text start (chunkBreakEnd S text start))
            have h2 := listSlice_length_le text start (chunkBreakEnd S text start)
            omega
          have hnsgt : start < chunkNextStart O start (chunkBreakEnd S text start) :=
            chunkNextStart_gt O hlt
          have hacc2 : trimSpace (listSlice text start (chunkBreakEnd S text start)) :: acc =
              ((spans ++ [(start, chunkBreakEnd S text start)]).map (chunkOf text)).reverse := by
            simp [hacc, chunkOf]
          have hpw2 : (spans ++ [(start, chunkBreakEnd S text start)]).Pairwise
              (fun p q => p.1 < q.1) := by
            rw [List.pairwise_append]
            exact ⟨hpw, List.pairwise_singleton _ _, by
              intro p hp q hq
              rw [List.mem_singleton] at hq
              subst hq
              exact hstart p hp⟩
          have hspan2 : ∀ p ∈ spans ++ [(start, chunkBreakEnd S text start)],
              p.2 - p.1 ≤ S := by
            intro p hp
            rcases List.mem_append.mp hp with hp | hp
            · exact hspan p hp
            · rw [List.mem_singleton] at hp
              subst hp
              exact chunkBreakEnd_sub_le S text start
          by_cases hcap :
              10000 < (trimSpace (listSlice text start (chunkBreakEnd S text start)) :: acc).length
          · rw [if_pos hcap]
            refine ⟨spans ++ [(start, chunkBreakEnd S text start)], by simp [hacc2], hpw2,
              hspan2, ?_⟩
            have hsl2 : acc.length = spans.length := by simp [hacc]
            have hap : (spans ++ [(start, chunkBreakEnd S text start)]).length =
                spans.length + 1 := by simp
            omega
          · rw [if_neg hcap]
            refine ih _ _ _ (spans ++ [(start, chunkBreakEnd S text start)]) hacc2 hpw2 ?_
              hspan2 (by simp only [List.length_cons] at hcap ⊢; omega)
            intro p hp
            rcases List.mem_append.mp hp with hp | hp
            · exact lt_of_lt_of_le (hstart p hp) hns
            · rw [List.mem_singleton] at hp
              subst hp
              exact hnsgt
        · rw [if_neg hchunk, if_neg (by omega)]
          refine ih _ _ _ spans hacc hpw ?_ hspan hlen
          intro p hp
          exact lt_of_lt_of_le (hstart p hp) hns
    · rw [if_neg hsl]
      refine ⟨spans, by simp [hacc], hpw, hspan, ?_⟩
      have : acc.length = spans.length := by simp [hacc]
      omega

/-- Output specification of chunkText on an oversized text: a finite list
of at most 10001 chunks, each of length at most S after trimming, listed
in the order of their source spans (witnessed by a list of spans whose
start positions strictly increase along the list). -/
def ChunkOutputSpec (S O : Nat) (text : List Char) : Prop :=
  (chunkText S O text).length ≤ 10001 ∧
  (∀ c ∈ chunkText S O text, c.length ≤ S) ∧
  ∃ spans : List (Nat × Nat),
    chunkText S O text = spans.map (chunkOf text) ∧
    spans.Pairwise (fun p q => p.1 < q.1)

/-- C1 (amended): for every text longer than the chunk size S, chunkText
returns at most 10001 chunks (not 10000: the source checks the cap only
strictly after appending), each of length at most S after trimming, in
source order. -/
theorem chunkText_bounded_ordered (S O : Nat) (text : List Char)
    (h : S < text.length) : ChunkOutputSpec S O text := by
  unfold ChunkOutputSpec chunkText
  rw [if_neg (by omega)]
  obtain ⟨spans', heq, hpw, hbound, hlen⟩ :=
    chunkLoopF_spans S O text (2 * text.length + 2) 0 none [] []
      (by simp) (by simp) (by simp) (by simp) (by simp)
  rw [heq]
  refine ⟨by simp [hlen], ?_, spans', rfl, hpw⟩
  intro c hc
  rw [List.mem_map] at hc
  obtain ⟨p, hp, rfl⟩ := hc
  calc (chunkOf text p).length
      ≤ (listSlice text p.1 p.2).length := trimSpace_length_le _
    _ ≤ p.2 - p.1 := listSlice_length_le text p.1 p.2
    _ ≤ S := hbound p hp

/-- Witness for `chunkText_bounded_ordered` at a concrete input. -/
theorem chunkText_bounded_ordered_witness :
    2 < (['a', 'b', 'c', 'd'] : List Char).length ∧ ChunkOutputSpec 2 1 ['a', 'b', 'c', 'd'] :=
  ⟨by decide, chunkText_bounded_ordered 2 1 ['a', 'b', 'c', 'd'] (by decide)⟩

/-! ## The 10000-chunk cap is off by one (claim C1 counterexample) -/

theorem listSlice_replicate_one {start : Nat} (h : start < 10001) :
    listSlice (List.replicate 10001 'a') start (start + 1) = ['a'] := by
  unfold listSlice
  rw [List.drop_replicate, List.take_replicate]
  rw [show (start + 1 - start) ⊓ (10001 - start) = 1 by omega]
  rfl

theorem chunkBreakEnd_replicate {start : Nat} (h : start < 10001) :
    chunkBreakEnd 1 (List.replicate 10001 'a') start = start + 1 := by
  simp only [chunkBreakEnd, List.length_replicate]
  rw [show min (start + 1) 10001 = start + 1 by omega, listSlice_replicate_one h,
    show lastSpaceIdx ['a'] = none from rfl]
  split <;> rfl

/-- On a pure run of 10001 letters with chunk size 1 and overlap 0 the
loop emits one single-letter chunk per position and only stops once the
accumulator has exceeded 10000 entries. -/
theorem chunkLoopF_ones (k : Nat) :
    ∀ fuel start prev acc,
      start + k = 10001 →
      acc.length = start →
      k + 1 ≤ fuel →
      prev ≠ some start →
      chunkLoopF 1 0 (List.replicate 10001 'a') fuel start prev acc =
        acc.reverse ++ List.replicate k ['a'] := by
  induction k with
  | zero =>
    intro fuel start prev acc hk hacc hfuel hprev
    have hstart : start = 10001 := by omega
    cases fuel with
    | zero => omega
    | succ f =>
      rw [chunkLoopF_succ, if_neg (by simp only [List.length_replicate]; omega)]
      simp
  | succ j ih =>
    intro fuel start prev acc hk hacc hfuel hprev
    have hlt : start < 10001 := by omega
    cases fuel with
    | zero => omega
    | succ f =>
      rw [chunkLoopF_succ, if_pos (by simp only [List.length_replicate]; omega),
        if_neg hprev]
      simp only [chunkBreakEnd_replicate hlt, listSlice_replicate_one hlt]
      rw [show trimSpace ['a'] = ['a'] from rfl]
      rw [show (if 0 < (['a'] : List Char).length then ['a'] :: acc else acc) =
        ['a'] :: acc from rfl]
      rw [show chunkNextStart 0 start (start + 1) = start + 1 by
        unfold chunkNextStart; split <;> omega]
      simp only [List.length_cons]
      by_cases hj : j = 0
      · subst hj
        rw [if_pos (by omega)]
        simp [List.replicate_succ]
      · rw [if_neg (by omega)]
        rw [ih f (start + 1) (some start) (['a'] :: acc) (by omega)
          (by simp [hacc]) (by omega) (by simp)]
        simp [List.replicate_succ]

/-- C1 counterexample: with chunk size 1 and overlap 0, a text of 10001
letters is split into 10001 chunks, exceeding the 10000 cap the claim
states. (The source only breaks once `len(chunks) > 10000`, strictly
after appending, so the cap overshoots by one.) -/
theorem chunkText_exceeds_10000 :
    ¬ ((chunkText 1 0 (List.replicate 10001 'a')).length ≤ 10000) := by
  have h : chunkText 1 0 (List.replicate 10001 'a') = List.replicate 10001 ['a'] := by
    unfold chunkText
    rw [if_neg (by simp only [List.length_replicate]; omega)]
    simp only [List.length_replicate]
    rw [chunkLoopF_ones 10001 (2 * 10001 + 2) 0 none [] (by omega) rfl (by omega)
      (by simp)]
    simp only [List.reverse_nil, List.nil_append]
  rw [h]
  simp only [List.length_replicate]
  omega

/-! ## Termination of the chunk loop (claim C6) -/

/-- Termination and progress specification of the chunk loop: the result
is independent of the fuel once the fuel exceeds the loop measure (so the
fuel floor of the model is never the reason the loop stops), the break
position always lies strictly past the cursor, the advanced cursor always
moves strictly forward from a nonempty span, and when subtracting the
overlap would not move the cursor forward it is forced to the chunk end. -/
def ChunkTerminationSpec (S O : Nat) (text : List Char) : Prop :=
  (∀ fuel₁ fuel₂ start prev acc,
      chunkMeasure text.length start prev < fuel₁ →
      chunkMeasure text.length start prev < fuel₂ →
      chunkLoopF S O text fuel₁ start prev acc = chunkLoopF S O text fuel₂ start prev acc) ∧
  (∀ fuel, 2 * text.length + 2 ≤ fuel →
      chunkLoopF S O text fuel 0 none [] = chunkLoopF S O text (2 * text.length + 2) 0 none []) ∧
  (∀ start, start < text.length → start < chunkBreakEnd S text start) ∧
  (∀ start e, start < e → start < chunkNextStart O start e) ∧
  (∀ start e, e - O ≤ start → chunkNextStart O start e = e)

/-- C6: for every configuration with overlap strictly below the chunk
size, chunkText terminates on every text: each iteration makes strict
forward progress and the loop result is already reached at the fuel used
by chunkText. -/
theorem chunkText_terminates (S O : Nat) (text : List Char) (hOS : O < S) :
    ChunkTerminationSpec S O text := by
  refine ⟨chunkLoopF_fuel_irrelevant S O text, ?_, ?_, ?_, ?_⟩
  · intro fuel hfuel
    apply chunkLoopF_fuel_irrelevant
    · have : chunkMeasure text.length 0 none ≤ 2 * text.length + 1 := by
        unfold chunkMeasure; split <;> omega
      omega
    · have : chunkMeasure text.length 0 none ≤ 2 * text.length + 1 := by
        unfold chunkMeasure; split <;> omega
      omega
  · intro start h
    exact chunkBreakEnd_gt (by omega) h
  · intro start e h
    exact chunkNextStart_gt O h
  · intro start e h
    exact chunkNextStart_forced h

/-- Witness for `chunkText_terminates` at a concrete configuration. -/
theorem chunkText_terminates_witness :
    1 < 2 ∧ ChunkTerminationSpec 2 1 ['a', 'b', 'c'] :=
  ⟨by omega, chunkText_terminates 2 1 ['a', 'b', 'c'] (by omega)⟩

/-! ## Store (internal/store/store.go)

The three SQLite tables (store.go:96-146) are modelled as lists inside a
`StoreState`; `INSERT OR REPLACE` is modelled by prepending the new row
and dropping any previous row with the same primary key, and the SQL
`CURRENT_TIMESTAMP` columns by a logical clock `now` bumped on every
write. Failing statements roll the transaction back (store.go `defer
tx.Rollback()`), which the model expresses by returning the unchanged
state next to the error. -/

/-- Go map[string]string as an association list with unique keys
maintained by `mdSet`. -/
abbrev Metadata := List (String × String)

/-- Map lookup m[k], `none` for a missing key. -/
def mdLookup (m : Metadata) (k : String) : Option String :=
  (m.find? (fun kv => kv.1 = k)).map (fun kv => kv.2)

/-- Map assignment m[k] = v. -/
def mdSet (m : Metadata) (k v : String) : Metadata :=
  (k, v) :: m.filter (fun kv => kv.1 != k)

/-- Row of the `documents` table (store.go:98-104), as surfaced by
GetDocument: the metadata JSON is kept in parsed form, `none` standing
for the NULL produced by a nil Go map. -/
structure DocRow where
  id : String
  content : List Char
  metadata : Option Metadata
  createdAt : Nat
deriving DecidableEq

/-- Row of the `jobs` table (store.go:123-137). -/
structure JobRow where
  id : String
  type : String
  status : String
  params : String
  result : String
  error : String
  progress : Nat
  total : Nat
  parentId : Option String
  createdAt : Nat
  updatedAt : Nat
deriving DecidableEq

/-- The whole database: `documents`, `documents_vec` (created at fixed
dimension `dims`, store.go:111-116), `jobs`, and the logical clock. -/
structure StoreState where
  dims : Nat
  docs : List DocRow
  vecs : List (String × List Int)
  jobs : List JobRow
  now : Nat
deriving DecidableEq

/-- Store.GetDocument (store.go:266-298): the row with the given primary
key, or `none` for sql.ErrNoRows. -/
def getDocument (s : StoreState) (id : String) : Option DocRow :=
  s.docs.find? (fun d => d.id = id)

/-- Store.AddDocument (store.go:150-191): one transaction upserting the
document row and the vector row. The `documents_vec` virtual table is
declared with `embedding FLOAT[dims]` (store.go:111-116), so inserting a
vector of any other length fails and the deferred rollback leaves both
tables unchanged; the model returns the error with the unchanged state. -/
def addDocument (s : StoreState) (id : String) (content : List Char)
    (md : Option Metadata) (emb : List Int) : Except String Unit × StoreState :=
  if emb.length = s.dims then
    (Except.ok (),
      { s with
        docs := ⟨id, content, md, s.now⟩ :: s.docs.filter (fun d => d.id != id),
        vecs := (id, emb) :: s.vecs.filter (fun v => v.1 != id),
        now := s.now + 1 })
  else
    (Except.error "inserting vector: embedding dimension mismatch", s)

/-- Store.DeleteDocument (store.go:341-359): one transaction deleting
from both tables; a missing id deletes zero rows and is not an error. -/
def deleteDocument (s : StoreState) (id : String) : Except String Unit × StoreState :=
  (Except.ok (),
    { s with
      docs := s.docs.filter (fun d => d.id != id),
      vecs := s.vecs.filter (fun v => v.1 != id),
      now := s.now + 1 })

/-- Store.Count (store.go:362-366). -/
def countDocuments (s : StoreState) : Nat :=
  s.docs.length

/-- Shared body of CreateJob and CreateJobWithParent (store.go:369-378,
store.go:526-535): plain INSERT, so a duplicate primary key fails and
changes nothing; a fresh row starts with status `queued`, zero progress
and the current timestamps. -/
def createJobWith (s : StoreState) (id ty params : String) (parent : Option String) :
    Except String Unit × StoreState :=
  if s.jobs.any (fun j => j.id = id) then
    (Except.error "creating job: UNIQUE constraint failed", s)
  else
    (Except.ok (),
      { s with
        jobs := s.jobs ++ [⟨id, ty, "queued", params, "", "", 0, 0, parent, s.now, s.now⟩],
        now := s.now + 1 })

/-- Store.CreateJob (store.go:369-378). -/
def createJob (s : StoreState) (id ty params : String) : Except String Unit × StoreState :=
  createJobWith s id ty params none

/-- Store.CreateJobWithParent (store.go:526-535). -/
def createJobWithParent (s : StoreState) (id ty params parentId : String) :
    Except String Unit × StoreState :=
  createJobWith s id ty params (some parentId)

/-- Store.GetJob (store.go:381-411). -/
def getJob (s : StoreState) (id : String) : Option JobRow :=
  s.jobs.find? (fun j => j.id = id)

/-- Store.UpdateJobStatus (store.go:490-496): set status and bump
updated_at on every row with the given id. -/
def updateJobStatus (s : StoreState) (id status : String) : StoreState :=
  { s with
    jobs := s.jobs.map (fun j =>
      if j.id = id then { j with status := status, updatedAt := s.now } else j),
    now := s.now + 1 }

/-- Store.UpdateJobProgress (store.go:499-505). -/
def updateJobProgress (s : StoreState) (id : String) (progress total : Nat) : StoreState :=
  { s with
    jobs := s.jobs.map (fun j =>
      if j.id = id then { j with progress := progress, total := total, updatedAt := s.now }
      else j),
    now := s.now + 1 }

/-- Store.UpdateJobResult (store.go:508-514): sets the result and moves
the status to `completed`. -/
def updateJobResult (s : StoreState) (id result : String) : StoreState :=
  { s with
    jobs := s.jobs.map (fun j =>
      if j.id = id then
        { j with result := result, status := "completed", updatedAt := s.now }
      else j),
    now := s.now + 1 }

/-- Store.UpdateJobError (store.go:517-523): sets the error message and
moves the status to `failed`. -/
def updateJobError (s : StoreState) (id errMsg : String) : StoreState :=
  { s with
    jobs := s.jobs.map (fun j =>
      if j.id = id then
        { j with error := errMsg, status := "failed", updatedAt := s.now }
      else j),
    now := s.now + 1 }

/-- One step of the linear scan implementing the SQL minimum below. -/
def queuedMin (acc : Option JobRow) (j : JobRow) : Option JobRow :=
  if j.status = "queued" then
    match acc with
    | none => some j
    | some k => if j.createdAt < k.createdAt then some j else some k
  else acc

/-- The SQL `WHERE status = queued ORDER BY created_at ASC LIMIT 1` of
GetNextPendingJob (store.go:593-596): the first queued row of minimal
created_at. -/
def oldestQueued (jobs : List JobRow) : Option JobRow :=
  jobs.foldl queuedMin none

/-- Store.GetNextPendingJob (store.go:583-633): in one transaction,
select the oldest queued job, mark it processing, and return it with its
status already set to processing (store.go:631). -/
def getNextPendingJob (s : StoreState) : Option JobRow × StoreState :=
  match oldestQueued s.jobs with
  | none => (none, s)
  | some j => (some { j with status := "processing" }, updateJobStatus s j.id "processing")

/-- Store.DeleteJobs (store.go:636-651): delete by status, or every job
when the status is the literal `all`; returns the number removed. -/
def deleteJobs (s : StoreState) (status : String) : Nat × StoreState :=
  if status = "all" then
    (s.jobs.length, { s with jobs := [] })
  else
    ((s.jobs.filter (fun j => j.status = status)).length,
      { s with jobs := s.jobs.filter (fun j => j.status != status) })

/-! ## Association list lemmas -/

theorem find?_filter_of_imp {α : Type} (p q : α → Bool)
    (h : ∀ x, p x = true → q x = true) :
    ∀ l : List α, (l.filter q).find? p = l.find? p := by
  intro l
  induction l with
  | nil => rfl
  | cons a l ih =>
    by_cases hq : q a = true
    · rw [List.filter_cons_of_pos hq]
      by_cases hp : p a = true
      · rw [List.find?_cons_of_pos _ hp, List.find?_cons_of_pos _ hp]
      · rw [List.find?_cons_of_neg _ hp, List.find?_cons_of_neg _ hp, ih]
    · rw [List.filter_cons_of_neg hq, List.find?_cons_of_neg _ (fun hp => hq (h a hp)), ih]

theorem find?_filter_of_contra {α : Type} (p q : α → Bool)
    (h : ∀ x, p x = true → q x = false) :
    ∀ l : List α, (l.filter q).find? p = none := by
  intro l
  rw [List.find?_eq_none]
  intro x hx hpx
  rw [List.mem_filter] at hx
  rw [h x hpx] at hx
  exact absurd hx.2 (by simp)

/-! ## Reading documents back (lemmas about the upsert and the delete) -/

theorem getDocument_addDocument (s : StoreState) (id : String) (c : List Char)
    (md : Option Metadata) (emb : List Int) (x : String) (hdim : emb.length = s.dims) :
    getDocument (addDocument s id c md emb).2 x =
      if x = id then some ⟨id, c, md, s.now⟩ else getDocument s x := by
  unfold addDocument getDocument
  rw [if_pos hdim]
  simp only []
  by_cases hx : x = id
  · subst hx
    rw [if_pos rfl, List.find?_cons_of_pos _ (by simp)]
  · rw [if_neg hx, List.find?_cons_of_neg _ (by simp [Ne.symm hx])]
    apply find?_filter_of_imp
    intro d hd
    simp only [decide_eq_true_eq] at hd
    simp only [hd, bne_iff_ne, ne_eq]
    exact hx

theorem getDocument_deleteDocument (s : StoreState) (id x : String) :
    getDocument (deleteDocument s id).2 x = if x = id then none else getDocument s x := by
  unfold deleteDocument getDocument
  simp only []
  by_cases hx : x = id
  · subst hx
    rw [if_pos rfl]
    apply find?_filter_of_contra
    intro d hd
    simp only [decide_eq_true_eq] at hd
    simp [hd]
  · rw [if_neg hx]
    apply find?_filter_of_imp
    intro d hd
    simp only [decide_eq_true_eq] at hd
    simp only [hd, bne_iff_ne, ne_eq]
    exact hx

/-! ## Claim C7: the dimension guard of AddDocument -/

/-- C7: AddDocument fails whenever the embedding length differs from the
configured dimension (the `FLOAT[D]` vector table rejects the insert),
and every failure of AddDocument leaves the store unchanged (the
transaction is rolled back as a whole). -/
theorem addDocument_dimension_guard (s : StoreState) (id : String) (c : List Char)
    (md : Option Metadata) (emb : List Int) :
    (emb.length ≠ s.dims →
      (addDocument s id c md emb).1 =
        Except.error "inserting vector: embedding dimension mismatch" ∧
      (addDocument s id c md emb).2 = s) ∧
    (∀ e, (addDocument s id c md emb).1 = Except.error e →
      (addDocument s id c md emb).2 = s) := by
  constructor
  · intro h
    unfold addDocument
    rw [if_neg h]
    exact ⟨rfl, rfl⟩
  · intro e he
    unfold addDocument at he ⊢
    by_cases hdim : emb.length = s.dims
    · rw [if_pos hdim] at he
      exact absurd he (by simp)
    · rw [if_neg hdim]

/-- Witness for `addDocument_dimension_guard` at a concrete store of
dimension 2 and an embedding of length 1. -/
theorem addDocument_dimension_guard_witness :
    ([(5 : Int)].length ≠ (⟨2, [], [], [], 0⟩ : StoreState).dims) ∧
      ((addDocument ⟨2, [], [], [], 0⟩ "d" ['x'] none [(5 : Int)]).1 =
        Except.error "inserting vector: embedding dimension mismatch" ∧
      (addDocument ⟨2, [], [], [], 0⟩ "d" ['x'] none [(5 : Int)]).2 = ⟨2, [], [], [], 0⟩) :=
  ⟨by decide, (addDocument_dimension_guard ⟨2, [], [], [], 0⟩ "d" ['x'] none [(5 : Int)]).1
    (by decide)⟩

/-! ## Claim C4: document and embedding rows stay paired -/

/-- The store operations that touch the document tables: AddDocument and
DeleteDocument (the job operations never write `documents` or
`documents_vec`). A failing AddDocument leaves the state unchanged, as
the transaction rolls back. -/
inductive DocOp where
  | add (id : String) (content : List Char) (md : Option Metadata) (emb : List Int)
  | del (id : String)

def applyDocOp (s : StoreState) : DocOp → StoreState
  | .add id content md emb => (addDocument s id content md emb).2
  | .del id => (deleteDocument s id).2

/-- The store as initialised by initSchema on a fresh database file
(store.go:96-146): empty tables at the configured dimension. -/
def initialStore (dims : Nat) : StoreState :=
  ⟨dims, [], [], [], 0⟩

/-- States reachable from a fresh database by document-table writes. -/
def ReachableStore (dims : Nat) (s : StoreState) : Prop :=
  ∃ ops : List DocOp, s = ops.foldl applyDocOp (initialStore dims)

/-- Pairing invariant of claim C4: both tables have unique primary keys,
a document row exists exactly when an embedding row with the same id
does, and every stored embedding has the configured dimension. -/
def docVecPaired (s : StoreState) : Prop :=
  (s.docs.map (fun d => d.id)).Nodup ∧
  (s.vecs.map (fun v => v.1)).Nodup ∧
  (∀ id : String, (∃ d ∈ s.docs, d.id = id) ↔ (∃ v ∈ s.vecs, v.1 = id)) ∧
  (∀ v ∈ s.vecs, v.2.length = s.dims)

theorem nodup_filter_map_id {α : Type} (f : α → String) (l : List α) (q : α → Bool)
    (h : (l.map f).Nodup) : ((l.filter q).map f).Nodup :=
  h.sublist ((List.filter_sublist (p := q) l).map f)

theorem docVecPaired_addDocument (s : StoreState) (id : String) (c : List Char)
    (md : Option Metadata) (emb : List Int) (h : docVecPaired s) :
    docVecPaired (addDocument s id c md emb).2 := by
  obtain ⟨hd, hv, hiff, hlen⟩ := h
  unfold addDocument
  by_cases hdim : emb.length = s.dims
  · rw [if_pos hdim]
    simp only []
    refine ⟨?_, ?_, ?_, ?_⟩
    · rw [List.map_cons, List.nodup_cons]
      refine ⟨?_, nodup_filter_map_id _ _ _ hd⟩
      intro hmem
      rw [List.mem_map] at hmem
      obtain ⟨d, hdm, hdi⟩ := hmem
      rw [List.mem_filter] at hdm
      simp only [bne_iff_ne, ne_eq, decide_eq_true_eq] at hdm
      exact hdm.2 hdi
    · rw [List.map_cons, List.nodup_cons]
      refine ⟨?_, nodup_filter_map_id _ _ _ hv⟩
      intro hmem
      rw [List.mem_map] at hmem
      obtain ⟨v, hvm, hvi⟩ := hmem
      rw [List.mem_filter] at hvm
      simp only [bne_iff_ne, ne_eq, decide_eq_true_eq] at hvm
      exact hvm.2 hvi
    · intro x
      by_cases hx : x = id
      · subst hx
        constructor
        · intro _; exact ⟨(x, emb), List.mem_cons_self _ _, rfl⟩
        · intro _; exact ⟨⟨x, c, md, s.now⟩, List.mem_cons_self _ _, rfl⟩
      · constructor
        · rintro ⟨d, hdm, rfl⟩
          rcases List.mem_cons.mp hdm with rfl | hdm
          · exact absurd rfl hx
          · rw [List.mem_filter] at hdm
            obtain ⟨v, hvm, hvi⟩ := (hiff d.id).mp ⟨d, hdm.1, rfl⟩
            exact ⟨v, List.mem_cons_of_mem _ (List.mem_filter.mpr
              ⟨hvm, by simp only [bne_iff_ne, ne_eq, decide_eq_true_eq, hvi]; exact hx⟩), hvi⟩
        · rintro ⟨v, hvm, rfl⟩
          rcases List.mem_cons.mp hvm with heq | hvm
          · exact absurd (congrArg Prod.fst heq) hx
          · rw [List.mem_filter] at hvm
            obtain ⟨d, hdm, hdi⟩ := (hiff v.1).mpr ⟨v, hvm.1, rfl⟩
            exact ⟨d, List.mem_cons_of_mem _ (List.mem_filter.mpr
              ⟨hdm, by simp only [bne_iff_ne, ne_eq, decide_eq_true_eq, hdi]; exact hx⟩), hdi⟩
    · intro v hvm
      rcases List.mem_cons.mp hvm with rfl | hvm
      · exact hdim
      · rw [List.mem_filter] at hvm
        exact hlen v hvm.1
  · rw [if_neg hdim]
    exact ⟨hd, hv, hiff, hlen⟩

theorem docVecPaired_deleteDocument (s : StoreState) (id : String) (h : docVecPaired s) :
    docVecPaired (deleteDocument s id).2 := by
  obtain ⟨hd, hv, hiff, hlen⟩ := h
  unfold deleteDocument
  simp only []
  refine ⟨nodup_filter_map_id _ _ _ hd, nodup_filter_map_id _ _ _ hv, ?_, ?_⟩
  · intro x
    constructor
    · rintro ⟨d, hdm, rfl⟩
      rw [List.mem_filter] at hdm
      simp only [bne_iff_ne, ne_eq, decide_eq_true_eq] at hdm
      obtain ⟨v, hvm, hvi⟩ := (hiff d.id).mp ⟨d, hdm.1, rfl⟩
      exact ⟨v, List.mem_filter.mpr ⟨hvm,
        by simp only [bne_iff_ne, ne_eq, decide_eq_true_eq, hvi]; exact hdm.2⟩, hvi⟩
    · rintro ⟨v, hvm, rfl⟩
      rw [List.mem_filter] at hvm
      simp only [bne_iff_ne, ne_eq, decide_eq_true_eq] at hvm
      obtain ⟨d, hdm, hdi⟩ := (hiff v.1).mpr ⟨v, hvm.1, rfl⟩
      exact ⟨d, List.mem_filter.mpr ⟨hdm,
        by simp only [bne_iff_ne, ne_eq, decide_eq_true_eq, hdi]; exact hvm.2⟩, hdi⟩
  · intro v hvm
    rw [List.mem_filter] at hvm
    exact hlen v hvm.1

theorem docVecPaired_applyDocOp (s : StoreState) (op : DocOp) (h : docVecPaired s) :
    docVecPaired (applyDocOp s op) := by
  cases op with
  | add id content md emb => exact docVecPaired_addDocument s id content md emb h
  | del id => exact docVecPaired_deleteDocument s id h

theorem filter_key_length_one {l : List (String × List Int)} {id : String}
    (hnd : (l.map Prod.fst).Nodup) (hex : ∃ v ∈ l, v.1 = id) :
    (l.filter (fun v => v.1 = id)).length = 1 := by
  induction l with
  | nil => simp at hex
  | cons a l ih =>
    rw [List.map_cons, List.nodup_cons] at hnd
    by_cases ha : a.1 = id
    · rw [List.filter_cons_of_pos (by simp [ha])]
      have hnil : l.filter (fun v => v.1 = id) = [] := by
        rw [List.filter_eq_nil_iff]
        intro v hvm hveq
        simp only [decide_eq_true_eq] at hveq
        exact hnd.1 (List.mem_map.mpr ⟨v, hvm, by rw [hveq, ha]⟩)
      rw [hnil]
      rfl
    · rw [List.filter_cons_of_neg (by simp [ha])]
      apply ih hnd.2
      rcases hex with ⟨v, hvm, hveq⟩
      rcases List.mem_cons.mp hvm with rfl | hvm
      · exact absurd hveq ha
      · exact ⟨v, hvm, hveq⟩

/-- C4: every operation on the document tables preserves the pairing
invariant, and in every state reachable from a fresh database every
document row has exactly one embedding row with the same id (AddDocument
writes both rows in one transaction, DeleteDocument removes both, and a
failed transaction is rolled back whole). -/
theorem docVec_pairing :
    (∀ (s : StoreState) (op : DocOp), docVecPaired s → docVecPaired (applyDocOp s op)) ∧
    (∀ (dims : Nat) (s : StoreState), ReachableStore dims s →
      docVecPaired s ∧
      ∀ d ∈ s.docs, (s.vecs.filter (fun v => v.1 = d.id)).length = 1) := by
  have hfold : ∀ (ops : List DocOp) (s₀ : StoreState), docVecPaired s₀ →
      docVecPaired (ops.foldl applyDocOp s₀) := by
    intro ops
    induction ops with
    | nil => intro s₀ h; exact h
    | cons op ops ih =>
      intro s₀ h
      exact ih _ (docVecPaired_applyDocOp s₀ op h)
  refine ⟨docVecPaired_applyDocOp, ?_⟩
  rintro dims s ⟨ops, rfl⟩
  have hinit : docVecPaired (initialStore dims) := by
    refine ⟨List.nodup_nil, List.nodup_nil, ?_, ?_⟩ <;> simp [initialStore]
  have hp := hfold ops (initialStore dims) hinit
  refine ⟨hp, ?_⟩
  intro d hdm
  exact filter_key_length_one hp.2.1 ((hp.2.2.1 d.id).mp ⟨d, hdm, rfl⟩)

/-- Witness for `docVec_pairing` at a store reached by one insert. -/
theorem docVec_pairing_witness :
    ReachableStore 1 (applyDocOp (initialStore 1) (DocOp.add "d" ['x'] none [3])) ∧
      (docVecPaired (applyDocOp (initialStore 1) (DocOp.add "d" ['x'] none [3])) ∧
        ∀ d ∈ (applyDocOp (initialStore 1) (DocOp.add "d" ['x'] none [3])).docs,
          ((applyDocOp (initialStore 1) (DocOp.add "d" ['x'] none [3])).vecs.filter
            (fun v => v.1 = d.id)).length = 1) :=
  ⟨⟨[DocOp.add "d" ['x'] none [3]], rfl⟩,
    docVec_pairing.2 1 _ ⟨[DocOp.add "d" ['x'] none [3]], rfl⟩⟩

/-! ## Claim C3: GetNextPendingJob claims the oldest queued job -/

theorem queuedMin_foldl_spec :
    ∀ (jobs : List JobRow) (acc : Option JobRow),
      (jobs.foldl queuedMin acc = none → acc = none ∧ ∀ j ∈ jobs, ¬ j.status = "queued") ∧
      (∀ j, jobs.foldl queuedMin acc = some j →
        (acc = some j ∨ (j ∈ jobs ∧ j.status = "queued")) ∧
        (∀ b, acc = some b → j.createdAt ≤ b.createdAt) ∧
        (∀ k ∈ jobs, k.status = "queued" → j.createdAt ≤ k.createdAt)) := by
  intro jobs
  induction jobs with
  | nil =>
    intro acc
    refine ⟨fun h => ⟨h, by simp⟩, fun j h => ⟨Or.inl h, ?_, by simp⟩⟩
    intro b hb
    simp only [List.foldl_nil] at h
    rw [h] at hb
    injection hb with hb
    rw [hb]
  | cons a l ih =>
    intro acc
    have hstep := ih (queuedMin acc a)
    rw [List.foldl_cons]
    constructor
    · intro h
      obtain ⟨hqm, hl⟩ := hstep.1 h
      unfold queuedMin at hqm
      by_cases ha : a.status = "queued"
      · rw [if_pos ha] at hqm
        cases acc with
        | none => simp at hqm
        | some k =>
          simp only [] at hqm
          split at hqm <;> simp at hqm
      · rw [if_neg ha] at hqm
        refine ⟨hqm, ?_⟩
        intro j hj
        rcases List.mem_cons.mp hj with rfl | hj
        · exact ha
        · exact hl j hj
    · intro j h
      obtain ⟨hleft, hmin, hrest⟩ := hstep.2 j h
      by_cases ha : a.status = "queued"
      · cases acc with
        | none =>
          have hqm : queuedMin none a = some a := by
            unfold queuedMin; rw [if_pos ha]
          rw [hqm] at hleft hmin
          have hja : j.createdAt ≤ a.createdAt := hmin a rfl
          refine ⟨?_, by intro b hb; simp at hb, ?_⟩
          · rcases hleft with hl | hl
            · injection hl with hl
              subst hl
              exact Or.inr ⟨List.mem_cons_self a l, ha⟩
            · exact Or.inr ⟨List.mem_cons_of_mem a hl.1, hl.2⟩
          · intro k hk hkq
            rcases List.mem_cons.mp hk with rfl | hk
            · exact hja
            · exact hrest k hk hkq
        | some k₀ =>
          have hqm : queuedMin (some k₀) a =
              if a.createdAt < k₀.createdAt then some a else some k₀ := by
            unfold queuedMin; rw [if_pos ha]
          by_cases hak : a.createdAt < k₀.createdAt
          · rw [hqm, if_pos hak] at hleft hmin
            have hja : j.createdAt ≤ a.createdAt := hmin a rfl
            refine ⟨?_, ?_, ?_⟩
            · rcases hleft with hl | hl
              · injection hl with hl
                subst hl
                exact Or.inr ⟨List.mem_cons_self a l, ha⟩
              · exact Or.inr ⟨List.mem_cons_of_mem a hl.1, hl.2⟩
            · intro b hb
              injection hb with hb
              subst hb
              omega
            · intro k hk hkq
              rcases List.mem_cons.mp hk with rfl | hk
              · exact hja
              · exact hrest k hk hkq
          · rw [hqm, if_neg hak] at hleft hmin
            have hjk : j.createdAt ≤ k₀.createdAt := hmin k₀ rfl
            refine ⟨?_, ?_, ?_⟩
            · rcases hleft with hl | hl
              · exact Or.inl hl
              · exact Or.inr ⟨List.mem_cons_of_mem a hl.1, hl.2⟩
            · intro b hb
              injection hb with hb
              subst hb
              exact hjk
            · intro k hk hkq
              rcases List.mem_cons.mp hk with rfl | hk
              · omega
              · exact hrest k hk hkq
      · have hqm : queuedMin acc a = acc := by
          unfold queuedMin; rw [if_neg ha]
        rw [hqm] at hleft hmin
        refine ⟨?_, hmin, ?_⟩
        · rcases hleft with hl | hl
          · exact Or.inl hl
          · exact Or.inr ⟨List.mem_cons_of_mem a hl.1, hl.2⟩
        · intro k hk hkq
          rcases List.mem_cons.mp hk with rfl | hk
          · exact absurd hkq ha
          · exact hrest k hk hkq

theorem oldestQueued_none_iff (jobs : List JobRow) :
    oldestQueued jobs = none ↔ ∀ j ∈ jobs, ¬ j.status = "queued" := by
  constructor
  · intro h
    exact ((queuedMin_foldl_spec jobs none).1 h).2
  · intro h
    cases hq : oldestQueued jobs with
    | none => rfl
    | some j =>
      obtain ⟨hleft, _, _⟩ := (queuedMin_foldl_spec jobs none).2 j hq
      rcases hleft with hl | hl
      · exact absurd hl (by simp)
      · exact absurd hl.2 (h j hl.1)

theorem oldestQueued_some_spec {jobs : List JobRow} {j : JobRow}
    (h : oldestQueued jobs = some j) :
    j ∈ jobs ∧ j.status = "queued" ∧
      ∀ k ∈ jobs, k.status = "queued" → j.createdAt ≤ k.createdAt := by
  obtain ⟨hleft, _, hmin⟩ := (queuedMin_foldl_spec jobs none).2 j h
  rcases hleft with hl | hl
  · exact absurd hl (by simp)
  · exact ⟨hl.1, hl.2, hmin⟩

/-- C3: when a queued job exists, GetNextPendingJob returns the queued
job of minimal created_at with its status already set to processing and,
in the same transaction, marks that row processing in the jobs table;
when no queued job exists it returns the none sentinel and leaves the
store untouched; and two consecutive invocations can never hand out the
same job id. -/
theorem getNextPendingJob_spec (s : StoreState) :
    ((∃ j ∈ s.jobs, j.status = "queued") →
      ∃ j₀, j₀ ∈ s.jobs ∧ j₀.status = "queued" ∧
        (∀ k ∈ s.jobs, k.status = "queued" → j₀.createdAt ≤ k.createdAt) ∧
        (getNextPendingJob s).1 = some { j₀ with status := "processing" } ∧
        (∀ k ∈ (getNextPendingJob s).2.jobs, k.id = j₀.id → k.status = "processing")) ∧
    ((∀ j ∈ s.jobs, ¬ j.status = "queued") → getNextPendingJob s = (none, s)) ∧
    (∀ j j', (getNextPendingJob s).1 = some j →
      (getNextPendingJob (getNextPendingJob s).2).1 = some j' → j'.id ≠ j.id) := by
  refine ⟨?_, ?_, ?_⟩
  · rintro ⟨jw, hjw, hjwq⟩
    cases hq : oldestQueued s.jobs with
    | none =>
      exact absurd hjwq ((oldestQueued_none_iff s.jobs).mp hq jw hjw)
    | some j₀ =>
      obtain ⟨hmem, hstat, hmin⟩ := oldestQueued_some_spec hq
      refine ⟨j₀, hmem, hstat, hmin, ?_, ?_⟩
      · unfold getNextPendingJob
        rw [hq]
      · unfold getNextPendingJob
        rw [hq]
        simp only [updateJobStatus, List.mem_map]
        rintro k ⟨k₀, hk₀, rfl⟩ hkid
        by_cases hid : k₀.id = j₀.id
        · rw [if_pos hid]
        · rw [if_neg hid] at hkid ⊢
          exact absurd hkid hid
  · intro h
    unfold getNextPendingJob
    rw [(oldestQueued_none_iff s.jobs).mpr h]
  · intro j j' h1 h2
    cases hq : oldestQueued s.jobs with
    | none =>
      unfold getNextPendingJob at h1
      rw [hq] at h1
      exact absurd h1 (by simp)
    | some j₀ =>
      unfold getNextPendingJob at h1 h2
      rw [hq] at h1 h2
      simp only [] at h1 h2
      cases hq' : oldestQueued (updateJobStatus s j₀.id "processing").jobs with
      | none =>
        rw [hq'] at h2
        exact absurd h2 (by simp)
      | some j₁ =>
        rw [hq'] at h2
        simp only [] at h2
        obtain ⟨hmem1, hstat1, _⟩ := oldestQueued_some_spec hq'
        injection h1 with h1
        injection h2 with h2
        intro heq
        rw [← h2, ← h1] at heq
        simp only [] at heq
        -- j₁ is queued in the updated table, but every row with the id of
        -- j₀ was just set to processing
        simp only [updateJobStatus, List.mem_map] at hmem1
        obtain ⟨k₀, hk₀, hk₀eq⟩ := hmem1
        by_cases hid : k₀.id = j₀.id
        · rw [if_pos hid] at hk₀eq
          rw [← hk₀eq] at hstat1
          simp at hstat1
        · rw [if_neg hid] at hk₀eq
          rw [← hk₀eq] at heq
          exact hid heq

/-- Concrete store with two queued jobs, for the C3 witness. -/
def jobStoreExample : StoreState :=
  ⟨1, [], [],
    [⟨"j1", "index_file", "queued", "p1", "", "", 0, 0, none, 0, 0⟩,
     ⟨"j2", "index_file", "queued", "p2", "", "", 0, 0, none, 1, 1⟩], 2⟩

/-- Witness for `getNextPendingJob_spec` at a concrete store. -/
theorem getNextPendingJob_spec_witness :
    (∃ j ∈ jobStoreExample.jobs, j.status = "queued") ∧
      ∃ j₀, j₀ ∈ jobStoreExample.jobs ∧ j₀.status = "queued" ∧
        (∀ k ∈ jobStoreExample.jobs, k.status = "queued" → j₀.createdAt ≤ k.createdAt) ∧
        (getNextPendingJob jobStoreExample).1 = some { j₀ with status := "processing" } ∧
        (∀ k ∈ (getNextPendingJob jobStoreExample).2.jobs, k.id = j₀.id →
          k.status = "processing") :=
  ⟨by decide, (getNextPendingJob_spec jobStoreExample).1 (by decide)⟩

/-! ## Claim C5: terminal job statuses are sticky -/

/-- Model of Queue.processNextJob together with the two job processors
(queue.go:145-272). The indexing work itself only touches the document
tables, never the jobs table (goldie.go only calls GetDocument,
AddDocument and DeleteDocument), so its outcome enters the model
abstractly: `paramsOk` tells whether the params JSON parsed, `fileRes`
is the file-job outcome (marshalled result JSON or error message),
`dirRes` the directory-scan outcome with one (child id, child params)
pair per discovered file (child ids come from uuid generation), and
`dirResult` the marshalled directory result. -/
def processNextJobModel (s : StoreState) (paramsOk : Bool)
    (fileRes : Except String String)
    (dirRes : Except String (List (String × String))) (dirResult : String) : StoreState :=
  match getNextPendingJob s with
  | (none, _) => s
  | (some j, s₁) =>
    if j.type = "index_file" then
      if paramsOk then
        let s₂ := updateJobProgress s₁ j.id 0 1
        match fileRes with
        | .error e => updateJobError s₂ j.id ("indexing failed: " ++ e)
        | .ok res => updateJobResult (updateJobProgress s₂ j.id 1 1) j.id res
      else updateJobError s₁ j.id "invalid params"
    else if j.type = "index_directory" then
      if paramsOk then
        match dirRes with
        | .error e => updateJobError s₁ j.id ("scanning failed: " ++ e)
        | .ok children =>
          let s₂ := updateJobProgress s₁ j.id 0 children.length
          let s₃ := children.foldl
            (fun st c => (createJobWithParent st c.1 "index_file" c.2 j.id).2) s₂
          updateJobResult s₃ j.id dirResult
      else updateJobError s₁ j.id "invalid params"
    else updateJobError s₁ j.id ("unknown job type: " ++ j.type)

/-- The queue and worker steps acting on the jobs table: enqueueing a
file or directory job (queue.go:68-117), one worker round
(queue.go:145-272), and clearing jobs by status (main.go:762-795). -/
inductive QueueStep : StoreState → StoreState → Prop
  | enqueueFile (s : StoreState) (id params : String) :
      QueueStep s (createJob s id "index_file" params).2
  | enqueueDir (s : StoreState) (id params : String) :
      QueueStep s (createJob s id "index_directory" params).2
  | process (s : StoreState) (paramsOk : Bool) (fileRes : Except String String)
      (dirRes : Except String (List (String × String))) (dirResult : String) :
      QueueStep s (processNextJobModel s paramsOk fileRes dirRes dirResult)
  | clear (s : StoreState) (status : String) :
      QueueStep s (deleteJobs s status).2

/-- All rows carrying the id of `j` exist and still carry the status of
`j`. -/
def jobRowsLocked (jobs : List JobRow) (j : JobRow) : Prop :=
  (∃ k ∈ jobs, k.id = j.id) ∧ (∀ k ∈ jobs, k.id = j.id → k.status = j.status)

theorem jobRowsLocked_map {jobs : List JobRow} {j : JobRow} {t : String}
    (g : JobRow → JobRow) (hgid : ∀ k, (g k).id = k.id) (ht : t ≠ j.id)
    (h : jobRowsLocked jobs j) :
    jobRowsLocked (jobs.map (fun k => if k.id = t then g k else k)) j := by
  obtain ⟨⟨k₁, hk₁, hk₁id⟩, hall⟩ := h
  constructor
  · refine ⟨k₁, List.mem_map.mpr ⟨k₁, hk₁, ?_⟩, hk₁id⟩
    rw [if_neg (by rw [hk₁id]; exact Ne.symm ht)]
  · rintro k hk hkid
    rw [List.mem_map] at hk
    obtain ⟨k₀, hk₀, rfl⟩ := hk
    by_cases h0 : k₀.id = t
    · rw [if_pos h0] at hkid
      rw [hgid k₀, h0] at hkid
      exact absurd hkid ht
    · rw [if_neg h0] at hkid ⊢
      exact hall k₀ hk₀ hkid

theorem jobRowsLocked_createJobWith (st : StoreState) (j : JobRow)
    (id ty params : String) (parent : Option String) (h : jobRowsLocked st.jobs j) :
    jobRowsLocked (createJobWith st id ty params parent).2.jobs j := by
  unfold createJobWith
  by_cases hany : st.jobs.any (fun k => k.id = id) = true
  · rw [if_pos hany]
    exact h
  · rw [if_neg hany]
    obtain ⟨⟨k₁, hk₁, hk₁id⟩, hall⟩ := h
    have hid : id ≠ j.id := by
      intro he
      apply hany
      rw [List.any_eq_true]
      exact ⟨k₁, hk₁, by simp [hk₁id, he]⟩
    constructor
    · exact ⟨k₁, List.mem_append_left _ hk₁, hk₁id⟩
    · intro k hk hkid
      rcases List.mem_append.mp hk with hk | hk
      · exact hall k hk hkid
      · rw [List.mem_singleton] at hk
        subst hk
        exact absurd hkid hid

theorem jobRowsLocked_deleteJobs (st : StoreState) (j : JobRow) (status : String)
    (h : jobRowsLocked st.jobs j) :
    jobRowsLocked (deleteJobs st status).2.jobs j ∨
      (∀ k ∈ (deleteJobs st status).2.jobs, k.id ≠ j.id) := by
  unfold deleteJobs
  by_cases hall : status = "all"
  · rw [if_pos hall]
    right
    simp
  · rw [if_neg hall]
    simp only []
    by_cases hst : j.status = status
    · right
      intro k hk hkid
      rw [List.mem_filter] at hk
      have hks := h.2 k hk.1 hkid
      have : k.status ≠ status := by
        have := hk.2
        simp only [bne_iff_ne, ne_eq, decide_eq_true_eq] at this
        exact this
      exact this (hks.trans hst)
    · left
      obtain ⟨⟨k₁, hk₁, hk₁id⟩, hall2⟩ := h
      refine ⟨⟨k₁, List.mem_filter.mpr ⟨hk₁, ?_⟩, hk₁id⟩, ?_⟩
      · have hks := hall2 k₁ hk₁ hk₁id
        simp only [bne_iff_ne, ne_eq]
        rw [hks]
        exact hst
      · intro k hk hkid
        rw [List.mem_filter] at hk
        exact hall2 k hk.1 hkid

theorem jobRowsLocked_process (s : StoreState) (paramsOk : Bool)
    (fileRes : Except String String) (dirRes : Except String (List (String × String)))
    (dirResult : String) (j : JobRow)
    (ht : j.status = "completed" ∨ j.status = "failed")
    (h : jobRowsLocked s.jobs j) :
    jobRowsLocked (processNextJobModel s paramsOk fileRes dirRes dirResult).jobs j := by
  unfold processNextJobModel
  cases hq : oldestQueued s.jobs with
  | none =>
    have hg : getNextPendingJob s = (none, s) := by
      unfold getNextPendingJob; rw [hq]
    rw [hg]
    exact h
  | some j₀ =>
    have hg : getNextPendingJob s =
        (some { j₀ with status := "processing" }, updateJobStatus s j₀.id "processing") := by
      unfold getNextPendingJob; rw [hq]
    rw [hg]
    obtain ⟨hmem, hstat, _⟩ := oldestQueued_some_spec hq
    have hid : j₀.id ≠ j.id := by
      intro he
      have hs := h.2 j₀ hmem he
      rw [hstat] at hs
      rcases ht with ht' | ht' <;> rw [ht'] at hs <;> exact absurd hs (by decide)
    have h1 : jobRowsLocked (updateJobStatus s j₀.id "processing").jobs j := by
      unfold updateJobStatus
      exact jobRowsLocked_map _ (fun k => rfl) hid h
    have hP : ∀ (st : StoreState) (p t : Nat), jobRowsLocked st.jobs j →
        jobRowsLocked (updateJobProgress st j₀.id p t).jobs j := by
      intro st p t h'
      unfold updateJobProgress
      exact jobRowsLocked_map _ (fun k => rfl) hid h'
    have hR : ∀ (st : StoreState) (r : String), jobRowsLocked st.jobs j →
        jobRowsLocked (updateJobResult st j₀.id r).jobs j := by
      intro st r h'
      unfold updateJobResult
      exact jobRowsLocked_map _ (fun k => rfl) hid h'
    have hU : ∀ (st : StoreState) (e : String), jobRowsLocked st.jobs j →
        jobRowsLocked (updateJobError st j₀.id e).jobs j := by
      intro st e h'
      unfold updateJobError
      exact jobRowsLocked_map _ (fun k => rfl) hid h'
    have hfold : ∀ (children : List (String × String)) (st : StoreState),
        jobRowsLocked st.jobs j →
        jobRowsLocked ((children.foldl (fun st c =>
          (createJobWithParent st c.1 "index_file" c.2 j₀.id).2) st).jobs) j := by
      intro children
      induction children with
      | nil => intro st h'; exact h'
      | cons c cs ih =>
        intro st h'
        rw [List.foldl_cons]
        exact ih _ (jobRowsLocked_createJobWith st j c.1 "index_file" c.2 (some j₀.id) h')
    simp only []
    split_ifs with hty hpok hty2 hpok2
    · cases fileRes with
      | error e => exact hU _ _ (hP _ _ _ h1)
      | ok res => exact hR _ _ (hP _ _ _ (hP _ _ _ h1))
    · exact hU _ _ h1
    · cases dirRes with
      | error e => exact hU _ _ h1
      | ok children => exact hR _ _ (hfold children _ (hP _ _ _ h1))
    · exact hU _ _ h1
    · exact hU _ _ h1

theorem queueStep_locked {m m' : StoreState} (hstep : QueueStep m m') (j : JobRow)
    (ht : j.status = "completed" ∨ j.status = "failed") (h : jobRowsLocked m.jobs j) :
    jobRowsLocked m'.jobs j ∨ (∀ k ∈ m'.jobs, k.id ≠ j.id) := by
  cases hstep with
  | enqueueFile id params =>
    exact Or.inl (jobRowsLocked_createJobWith m j id "index_file" params none h)
  | enqueueDir id params =>
    exact Or.inl (jobRowsLocked_createJobWith m j id "index_directory" params none h)
  | process paramsOk fileRes dirRes dirResult =>
    exact Or.inl (jobRowsLocked_process m paramsOk fileRes dirRes dirResult j ht h)
  | clear status =>
    exact jobRowsLocked_deleteJobs m j status h

/-- C5: once a job row is terminal (completed or failed), no sequence of
queue and worker steps changes its status again: in any state reached
from a store whose jobs table has unique ids, every surviving row with
that id still carries the same terminal status, unless the job was
explicitly deleted at some intermediate state (after which the id is
gone until a fresh job reuses it). In particular a job reaches a
terminal status at most once along any such run. -/
theorem job_terminal_sticky (s s' : StoreState)
    (hnd : (s.jobs.map (fun k => k.id)).Nodup)
    (hstar : Relation.ReflTransGen QueueStep s s')
    (j : JobRow) (hj : j ∈ s.jobs)
    (ht : j.status = "completed" ∨ j.status = "failed") :
    (∀ k ∈ s'.jobs, k.id = j.id → k.status = j.status) ∨
    ∃ mid : StoreState, Relation.ReflTransGen QueueStep s mid ∧
      Relation.ReflTransGen QueueStep mid s' ∧ ∀ k ∈ mid.jobs, k.id ≠ j.id := by
  have hbase : jobRowsLocked s.jobs j := by
    refine ⟨⟨j, hj, rfl⟩, ?_⟩
    intro k hk hkid
    have hkj : k = j := List.inj_on_of_nodup_map hnd hk hj hkid
    rw [hkj]
  suffices hs : jobRowsLocked s'.jobs j ∨
      ∃ mid : StoreState, Relation.ReflTransGen QueueStep s mid ∧
        Relation.ReflTransGen QueueStep mid s' ∧ ∀ k ∈ mid.jobs, k.id ≠ j.id by
    rcases hs with h | h
    · exact Or.inl h.2
    · exact Or.inr h
  induction hstar with
  | refl => exact Or.inl hbase
  | tail hst hstep ih =>
    rcases ih with hL | ⟨mid, h1, h2, h3⟩
    · rcases queueStep_locked hstep j ht hL with hL' | hR'
      · exact Or.inl hL'
      · exact Or.inr ⟨_, Relation.ReflTransGen.tail hst hstep, Relation.ReflTransGen.refl, hR'⟩
    · exact Or.inr ⟨mid, h1, Relation.ReflTransGen.tail h2 hstep, h3⟩

/-- Concrete one-job store with a completed job, for the C5 witness. -/
def completedJobRow : JobRow := ⟨"jc", "index_file", "completed", "p", "r", "", 1, 1, none, 0, 0⟩

/-- Store holding only `completedJobRow`. -/
def doneJobStore : StoreState := ⟨1, [], [], [completedJobRow], 1⟩

/-- Witness for `job_terminal_sticky` on the reflexive run. -/
theorem job_terminal_sticky_witness :
    ((doneJobStore.jobs.map (fun k => k.id)).Nodup ∧
      completedJobRow ∈ doneJobStore.jobs ∧
      (completedJobRow.status = "completed" ∨ completedJobRow.status = "failed")) ∧
    ((∀ k ∈ doneJobStore.jobs, k.id = completedJobRow.id → k.status = completedJobRow.status) ∨
      ∃ mid : StoreState, Relation.ReflTransGen QueueStep doneJobStore mid ∧
        Relation.ReflTransGen QueueStep mid doneJobStore ∧
        ∀ k ∈ mid.jobs, k.id ≠ completedJobRow.id) :=
  ⟨⟨by decide, by decide, by decide⟩,
    job_terminal_sticky doneJobStore doneJobStore (by decide) Relation.ReflTransGen.refl
      completedJobRow (by decide) (by decide)⟩

/-! ## Indexer (internal/goldie/goldie.go) -/

/-- Chunk document id `"<id>_chunk_<i>"` (goldie.go:151, goldie.go:232). -/
def chunkId (id : String) (i : Nat) : String :=
  id ++ "_chunk_" ++ toString i

/-- Per-chunk metadata (goldie.go:153-157): a fresh map receiving a copy
of the caller metadata (copying into an empty Go map yields a map equal
to the source, so the copied value is the source value; the aliasing
side of that line is modelled separately for claim C10), then the three
reserved keys. A nil caller map contributes nothing. -/
def chunkMetaFor (md : Option Metadata) (id : String) (i n : Nat) : Metadata :=
  mdSet (mdSet (mdSet (md.getD []) "parent_id" id) "chunk_index" (toString i))
    "total_chunks" (toString n)

/-- IndexResult (goldie.go:109-112). -/
structure IndexResult where
  id : String
  chunkCount : Nat
deriving DecidableEq

/-- The chunk loop of Goldie.Index (goldie.go:150-169): embed and store
each chunk in order; the first failure aborts the remainder and leaves
the chunks already stored in place. -/
def indexChunksLoop (emb : List Char → Except String (List Int)) (id : String)
    (md : Option Metadata) (n : Nat) :
    List (List Char) → Nat → StoreState → Except String Unit × StoreState
  | [], _, s => (Except.ok (), s)
  | c :: rest, i, s =>
    match emb c with
    | .error e =>
      (Except.error ("generating embedding for chunk " ++ toString i ++ ": " ++ e), s)
    | .ok v =>
      match addDocument s (chunkId id i) c (some (chunkMetaFor md id i n)) v with
      | (.error e, s') => (Except.error ("storing chunk " ++ toString i ++ ": " ++ e), s')
      | (.ok _, s') => indexChunksLoop emb id md n rest (i + 1) s'

/-- Goldie.Index (goldie.go:115-172): empty content fails, an empty id is
replaced by a fresh uuid (the parameter `fresh`), small content is stored
as one document, larger content chunk by chunk. -/
def indexDocument (emb : List Char → Except String (List Int)) (S O : Nat)
    (fresh : String) (s : StoreState) (content : List Char) (md : Option Metadata)
    (id : String) : Except String IndexResult × StoreState :=
  if content = [] then (Except.error "empty content", s)
  else
    let id := if id = "" then fresh else id
    if content.length ≤ S then
      match emb content with
      | .error e => (Except.error ("generating embedding: " ++ e), s)
      | .ok v =>
        match addDocument s id content md v with
        | (.error e, s') => (Except.error ("storing document: " ++ e), s')
        | (.ok _, s') => (Except.ok ⟨id, 1⟩, s')
    else
      let chunks := chunkText S O content
      match indexChunksLoop emb id md chunks.length chunks 0 s with
      | (.error e, s') => (Except.error e, s')
      | (.ok _, s') => (Except.ok ⟨id, chunks.length⟩, s')

/-- The chunk probe of DeleteDocumentAndChunks (goldie.go:230-239); the
fuel argument counts the remaining iterations of `for i := range 10000`. -/
def deleteChunksLoop (id : String) :
    Nat → Nat → Nat → StoreState → Nat × StoreState
  | 0, _, deleted, s => (deleted, s)
  | fuel + 1, i, deleted, s =>
    match getDocument s (chunkId id i) with
    | none => (deleted, s)
    | some _ =>
      deleteChunksLoop id fuel (i + 1) (deleted + 1) (deleteDocument s (chunkId id i)).2

/-- Goldie.DeleteDocumentAndChunks (goldie.go:221-242). -/
def deleteDocumentAndChunks (s : StoreState) (id : String) : Nat × StoreState :=
  let start :=
    if (getDocument s id).isSome then (1, (deleteDocument s id).2) else (0, s)
  deleteChunksLoop id 10000 0 start.1 start.2

/-- Checksum comparison of IndexFile (goldie.go:194 and goldie.go:199):
`doc != nil && doc.Metadata != nil && doc.Metadata["checksum"] == c`; a
missing key reads as the empty Go string. -/
def checksumMatches (d : Option DocRow) (c : String) : Bool :=
  match d with
  | none => false
  | some doc =>
    match doc.metadata with
    | none => false
    | some m => (mdLookup m "checksum").getD "" == c

/-- Goldie.IndexFile (goldie.go:175-218). The filesystem is a map from
paths to byte contents (`none` = read error); `sha` stands for the hex
SHA-256 of the bytes and `baseName` for filepath.Base, both supplied as
parameters of the model; `fresh` is passed through to Index. -/
def indexFile (emb : List Char → Except String (List Int)) (sha : List Char → String)
    (baseName : String → String) (S O : Nat) (fresh : String)
    (fs : String → Option (List Char)) (s : StoreState) (path : String) :
    Except String IndexResult × StoreState :=
  let id := baseName path
  match fs path with
  | none => (Except.error "reading file", s)
  | some content =>
    let checksum := sha content
    let existing := getDocument s id
    if checksumMatches existing checksum then (Except.ok ⟨id, 0⟩, s)
    else
      let existingChunk := getDocument s (chunkId id 0)
      if checksumMatches existingChunk checksum then (Except.ok ⟨id, 0⟩, s)
      else
        let s₁ := if existing.isSome || existingChunk.isSome then
            (deleteDocumentAndChunks s id).2
          else s
        indexDocument emb S O fresh s₁ content
          (some [("source", path), ("filename", id), ("checksum", checksum)]) id

/-! ## Claim C9: the delete_document tool rejects unknown ids -/

/-- main.go handleDeleteDocument (main.go:622-641): a missing id
parameter and a zero deleted count are both tool errors; otherwise the
deleted count is returned. -/
def handleDeleteDocument (s : StoreState) (id : String) :
    Except String (Nat × StoreState) :=
  if id = "" then Except.error "id is required"
  else
    let r := deleteDocumentAndChunks s id
    if r.1 = 0 then Except.error ("document not found: " ++ id)
    else Except.ok r

theorem deleteChunksLoop_miss {s : StoreState} {id : String} {i d : Nat}
    (h : getDocument s (chunkId id i) = none) :
    ∀ fuel, deleteChunksLoop id fuel i d s = (d, s) := by
  intro fuel
  cases fuel with
  | zero => rfl
  | succ f =>
    unfold deleteChunksLoop
    rw [h]

/-- C9: when neither the document nor its chunk 0 exists, the
delete_document tool returns the "document not found" error rather than
a success with deleted_count = 0, even though the store-level
DeleteDocument succeeds on a missing id. -/
theorem handleDeleteDocument_not_found (s : StoreState) (id : String)
    (hid : id ≠ "")
    (h1 : getDocument s id = none) (h2 : getDocument s (chunkId id 0) = none) :
    handleDeleteDocument s id = Except.error ("document not found: " ++ id) ∧
    (deleteDocument s id).1 = Except.ok () := by
  have hdel : deleteDocumentAndChunks s id = (0, s) := by
    unfold deleteDocumentAndChunks
    rw [h1]
    simp only [Option.isSome_none, Bool.false_eq_true, if_false]
    exact deleteChunksLoop_miss h2 10000
  refine ⟨?_, rfl⟩
  unfold handleDeleteDocument
  rw [if_neg hid]
  simp [hdel]

/-- Witness for `handleDeleteDocument_not_found` on the empty store. -/
theorem handleDeleteDocument_not_found_witness :
    (("x" : String) ≠ "" ∧ getDocument (initialStore 1) "x" = none ∧
      getDocument (initialStore 1) (chunkId "x" 0) = none) ∧
    (handleDeleteDocument (initialStore 1) "x" =
        Except.error ("document not found: " ++ "x") ∧
      (deleteDocument (initialStore 1) "x").1 = Except.ok ()) :=
  ⟨⟨by decide, rfl, rfl⟩,
    handleDeleteDocument_not_found (initialStore 1) "x" (by decide) rfl rfl⟩

/-! ## Claim C8: the recall depth is clamped to [1, 20] -/

/-- Depth normalisation of the recall tool (main.go:499-501):
`depth := 5`, and when the caller supplies a number,
`depth = max(min(int(depth), 20), 1)` (the Go conversion truncates the
JSON number to an integer before the clamp). -/
def recallDepth (depthArg : Option Int) : Int :=
  match depthArg with
  | none => 5
  | some d => max (min d 20) 1

/-- Limit normalisation of Goldie.Query (goldie.go:472-479), which the
recall handler calls with the clamped depth: a non-positive limit
becomes 5, any other limit is consulted as given. -/
def queryLimit (limit : Int) : Int :=
  if limit ≤ 0 then 5 else limit

/-- C8: a supplied recall depth is clamped to [1, 20] (values below 1
become 1, values above 20 become 20, values inside pass unchanged, which
is exactly `min (max d 1) 20`), the clamped depth is what the query
consults as its source count, and an absent depth defaults to 5. -/
theorem recallDepth_clamped :
    (∀ d : Int, recallDepth (some d) = min (max d 1) 20 ∧
      1 ≤ recallDepth (some d) ∧ recallDepth (some d) ≤ 20 ∧
      queryLimit (recallDepth (some d)) = recallDepth (some d)) ∧
    recallDepth none = 5 ∧ queryLimit (recallDepth none) = 5 := by
  refine ⟨?_, rfl, rfl⟩
  intro d
  refine ⟨?_, ?_, ?_, ?_⟩
  · simp only [recallDepth]
    omega
  · simp only [recallDepth]
    omega
  · simp only [recallDepth]
    omega
  · simp only [recallDepth, queryLimit]
    rw [if_neg (by omega)]

/-! ## Claim C2: checksum-based reindex suppression -/

theorem mdLookup_set_self (m : Metadata) (k v : String) :
    mdLookup (mdSet m k v) k = some v := by
  unfold mdLookup mdSet
  rw [List.find?_cons_of_pos _ (by simp)]
  rfl

theorem mdLookup_set_ne (m : Metadata) (k v k' : String) (h : k' ≠ k) :
    mdLookup (mdSet m k v) k' = mdLookup m k' := by
  unfold mdLookup mdSet
  rw [List.find?_cons_of_neg _ (by simp [Ne.symm h])]
  rw [find?_filter_of_imp]
  intro kv hkv
  simp only [decide_eq_true_eq] at hkv
  simp only [bne_iff_ne, ne_eq, hkv]
  exact h

theorem chunkMetaFor_checksum (md : Option Metadata) (id : String) (i n : Nat) :
    mdLookup (chunkMetaFor md id i n) "checksum" = mdLookup (md.getD []) "checksum" := by
  unfold chunkMetaFor
  rw [mdLookup_set_ne _ _ _ _ (by decide), mdLookup_set_ne _ _ _ _ (by decide),
    mdLookup_set_ne _ _ _ _ (by decide)]

theorem addDocument_ok {s : StoreState} {id : String} {c : List Char}
    {md : Option Metadata} {emb : List Int} {r : Unit} {s' : StoreState}
    (h : addDocument s id c md emb = (Except.ok r, s')) :
    emb.length = s.dims ∧
    s' = { s with
      docs := ⟨id, c, md, s.now⟩ :: s.docs.filter (fun d => d.id != id),
      vecs := (id, emb) :: s.vecs.filter (fun v => v.1 != id),
      now := s.now + 1 } := by
  unfold addDocument at h
  by_cases hdim : emb.length = s.dims
  · rw [if_pos hdim, Prod.mk.injEq] at h
    exact ⟨hdim, h.2.symm⟩
  · rw [if_neg hdim, Prod.mk.injEq] at h
    exact absurd h.1 (by simp)

/-- After a successful upsert the new row is what GetDocument returns. -/
theorem getDocument_addDocument_ok {s : StoreState} {id : String} {c : List Char}
    {md : Option Metadata} {emb : List Int} {r : Unit} {s' : StoreState}
    (h : addDocument s id c md emb = (Except.ok r, s')) (x : String) :
    getDocument s' x = if x = id then some ⟨id, c, md, s.now⟩ else getDocument s x := by
  obtain ⟨hdim, rfl⟩ := addDocument_ok h
  have := getDocument_addDocument s id c md emb x hdim
  unfold addDocument at this
  rw [if_pos hdim] at this
  exact this

/-- A failed transaction in `addDocument` hands back the same state. -/
theorem addDocument_error_state {s : StoreState} {id : String} {c : List Char}
    {md : Option Metadata} {emb : List Int} {e : String} {s' : StoreState}
    (h : addDocument s id c md emb = (Except.error e, s')) : s' = s := by
  unfold addDocument at h
  by_cases hdim : emb.length = s.dims
  · rw [if_pos hdim, Prod.mk.injEq] at h
    exact absurd h.1 (by simp)
  · rw [if_neg hdim, Prod.mk.injEq] at h
    exact h.2.symm

/-- Every row stored by the chunk loop carries the checksum of the
caller metadata, so a checksum hit at any document id survives the
loop. -/
theorem indexChunksLoop_preserves_hit
    (emb : List Char → Except String (List Int)) (id : String) (md : Option Metadata)
    (n : Nat) (x cs : String)
    (hmd : (mdLookup (md.getD []) "checksum").getD "" = cs) :
    ∀ (chunks : List (List Char)) (i : Nat) (s : StoreState),
      checksumMatches (getDocument s x) cs = true →
      checksumMatches
        (getDocument (indexChunksLoop emb id md n chunks i s).2 x) cs = true := by
  intro chunks
  induction chunks with
  | nil => intro i s h; exact h
  | cons c rest ih =>
    intro i s h
    unfold indexChunksLoop
    cases hembc : emb c with
    | error e => simp only []; exact h
    | ok v =>
      simp only []
      cases hadd : addDocument s (chunkId id i) c (some (chunkMetaFor md id i n)) v with
      | mk res s₂ =>
        cases res with
        | error e =>
          -- the failed transaction hands back the unchanged state
          simp only []
          rw [addDocument_error_state hadd]
          exact h
        | ok u =>
          simp only []
          apply ih
          rw [getDocument_addDocument_ok hadd x]
          by_cases hx : x = chunkId id i
          · rw [if_pos hx]
            unfold checksumMatches
            simp only []
            rw [chunkMetaFor_checksum, hmd]
            simp
          · rw [if_neg hx]
            exact h

/-- A missing document stays missing through the chunk-deletion probe. -/
theorem getDocument_deleteChunksLoop_none (id x : String) :
    ∀ (fuel i d : Nat) (s : StoreState), getDocument s x = none →
      getDocument (deleteChunksLoop id fuel i d s).2 x = none := by
  intro fuel
  induction fuel with
  | zero => intro i d s h; exact h
  | succ f ih =>
    intro i d s h
    unfold deleteChunksLoop
    cases hc : getDocument s (chunkId id i) with
    | none => exact h
    | some doc =>
      apply ih
      rw [getDocument_deleteDocument]
      by_cases hx : x = chunkId id i
      · rw [if_pos hx]
      · rw [if_neg hx]
        exact h

theorem deleteChunksLoop_zero_removes (id : String) (d : Nat) (s : StoreState)
    (f : Nat) :
    getDocument (deleteChunksLoop id (f + 1) 0 d s).2 (chunkId id 0) = none := by
  unfold deleteChunksLoop
  cases hc : getDocument s (chunkId id 0) with
  | none => exact hc
  | some doc =>
    apply getDocument_deleteChunksLoop_none
    rw [getDocument_deleteDocument, if_pos rfl]

/-- DeleteDocumentAndChunks leaves neither the base document nor chunk 0
behind. -/
theorem deleteDocumentAndChunks_removes (s : StoreState) (id : String) :
    getDocument (deleteDocumentAndChunks s id).2 id = none ∧
    getDocument (deleteDocumentAndChunks s id).2 (chunkId id 0) = none := by
  unfold deleteDocumentAndChunks
  simp only []
  constructor
  · apply getDocument_deleteChunksLoop_none
    by_cases hit : (getDocument s id).isSome = true
    · rw [if_pos hit]
      simp only []
      rw [getDocument_deleteDocument, if_pos rfl]
    · rw [if_neg hit]
      simp only []
      cases h : getDocument s id with
      | none => rfl
      | some doc => rw [h] at hit; exact absurd rfl hit
  · rw [show (10000 : Nat) = 9999 + 1 from rfl]
    apply deleteChunksLoop_zero_removes

theorem mdLookup_fileMeta (path b c : String) :
    mdLookup [("source", path), ("filename", b), ("checksum", c)] "checksum" = some c := by
  unfold mdLookup
  rw [List.find?_cons_of_neg _ (by simp), List.find?_cons_of_neg _ (by simp),
    List.find?_cons_of_pos _ (by simp)]
  rfl

/-- After a successful Index run on the cleaned store, a repeated
IndexFile on the same bytes takes a checksum hit (or re-chunks all-space
content to nothing) and returns (id, 0) without touching the store. -/
theorem indexDocument_then_skip
    (emb : List Char → Except String (List Int)) (sha : List Char → String)
    (baseName : String → String) (S O : Nat) (fresh' : String)
    (fs : String → Option (List Char)) (path : String) (bytes : List Char)
    (s₁ : StoreState) (fresh : String) (r : IndexResult) (s' : StoreState)
    (hbase : baseName path ≠ "")
    (hfs : fs path = some bytes)
    (hclean1 : getDocument s₁ (baseName path) = none)
    (hclean2 : getDocument s₁ (chunkId (baseName path) 0) = none)
    (h1 : indexDocument emb S O fresh s₁ bytes
        (some [("source", path), ("filename", baseName path), ("checksum", sha bytes)])
        (baseName path) = (Except.ok r, s')) :
    indexFile emb sha baseName S O fresh' fs s' path = (Except.ok ⟨baseName path, 0⟩, s') := by
  have hmd : (mdLookup ((some [("source", path), ("filename", baseName path),
      ("checksum", sha bytes)] : Option Metadata).getD []) "checksum").getD "" = sha bytes := by
    rw [show ((some [("source", path), ("filename", baseName path),
      ("checksum", sha bytes)] : Option Metadata)).getD [] = [("source", path),
      ("filename", baseName path), ("checksum", sha bytes)] from rfl, mdLookup_fileMeta]
    rfl
  unfold indexDocument at h1
  by_cases hnil : bytes = []
  · rw [if_pos hnil] at h1
    exact absurd h1 (by simp)
  · rw [if_neg hnil] at h1
    simp only [] at h1
    rw [if_neg hbase] at h1
    by_cases hsmall : bytes.length ≤ S
    · -- small document: the base id now carries the checksum
      rw [if_pos hsmall] at h1
      cases hembc : emb bytes with
      | error e => rw [hembc] at h1; exact absurd h1 (by simp)
      | ok v =>
        rw [hembc] at h1
        simp only [] at h1
        cases hadd : addDocument s₁ (baseName path) bytes
            (some [("source", path), ("filename", baseName path),
              ("checksum", sha bytes)]) v with
        | mk res s₂ =>
          rw [hadd] at h1
          cases res with
          | error e => simp only [] at h1; exact absurd h1 (by simp)
          | ok u =>
            simp only [Prod.mk.injEq] at h1
            obtain ⟨_, hs'⟩ := h1
            subst hs'
            have hdoc := getDocument_addDocument_ok hadd (baseName path)
            rw [if_pos rfl] at hdoc
            have hhit2 : checksumMatches (getDocument s₂ (baseName path))
                (sha bytes) = true := by
              rw [hdoc]
              unfold checksumMatches
              simp only []
              rw [mdLookup_fileMeta]
              simp
            unfold indexFile
            rw [hfs]
            simp only []
            rw [if_pos hhit2]
    · -- chunked document
      rw [if_neg hsmall] at h1
      cases hloop : indexChunksLoop emb (baseName path)
          (some [("source", path), ("filename", baseName path), ("checksum", sha bytes)])
          (chunkText S O bytes).length (chunkText S O bytes) 0 s₁ with
      | mk res s₂ =>
        rw [hloop] at h1
        cases res with
        | error e => simp only [] at h1; exact absurd h1 (by simp)
        | ok u =>
          simp only [Prod.mk.injEq] at h1
          obtain ⟨_, hs'⟩ := h1
          subst hs'
          cases hchunks : chunkText S O bytes with
          | nil =>
            -- all-space content: nothing was stored, and nothing will be
            rw [hchunks] at hloop
            simp only [indexChunksLoop, Prod.mk.injEq] at hloop
            obtain ⟨_, hs₂⟩ := hloop
            subst hs₂
            unfold indexFile
            rw [hfs]
            simp only []
            rw [if_neg (by rw [hclean1]; simp [checksumMatches])]
            rw [if_neg (by rw [hclean2]; simp [checksumMatches])]
            rw [if_neg (by rw [hclean1, hclean2]; simp)]
            unfold indexDocument
            rw [if_neg hnil]
            simp only []
            rw [if_neg hbase, if_neg hsmall, hchunks]
            simp only [indexChunksLoop, List.length_nil]
          | cons c₀ rest =>
            -- chunk 0 was stored with the checksum and survives the loop
            rw [hchunks] at hloop
            unfold indexChunksLoop at hloop
            cases hembc : emb c₀ with
            | error e => rw [hembc] at hloop; simp at hloop
            | ok v =>
              rw [hembc] at hloop
              simp only [] at hloop
              cases hadd : addDocument s₁ (chunkId (baseName path) 0) c₀
                  (some (chunkMetaFor
                    (some [("source", path), ("filename", baseName path),
                      ("checksum", sha bytes)])
                    (baseName path) 0 (c₀ :: rest).length)) v with
              | mk res₀ sₐ =>
                rw [hadd] at hloop
                cases res₀ with
                | error e => simp at hloop
                | ok u₀ =>
                  simp only [] at hloop
                  have hhit0 : checksumMatches
                      (getDocument sₐ (chunkId (baseName path) 0)) (sha bytes) = true := by
                    rw [getDocument_addDocument_ok hadd, if_pos rfl]
                    unfold checksumMatches
                    simp only []
                    rw [chunkMetaFor_checksum, hmd]
                    simp
                  have hhit2 := indexChunksLoop_preserves_hit emb (baseName path)
                    (some [("source", path), ("filename", baseName path),
                      ("checksum", sha bytes)])
                    (c₀ :: rest).length (chunkId (baseName path) 0) (sha bytes) hmd
                    rest (0 + 1) sₐ hhit0
                  rw [hloop] at hhit2
                  unfold indexFile
                  rw [hfs]
                  simp only []
                  by_cases hm1' : checksumMatches (getDocument s₂ (baseName path))
                      (sha bytes) = true
                  · rw [if_pos hm1']
                  · rw [if_neg hm1', if_pos hhit2]

/-- C2: checksum-based reindex suppression. First: whenever the stored
document with the file id, or the document with id `<id>_chunk_0`,
exists and its metadata checksum equals the checksum of the current
bytes, IndexFile returns (id, 0) and leaves the store untouched.
Second: whenever an IndexFile call succeeds, an immediately repeated
call with unchanged bytes returns chunk_count = 0 and leaves the store
exactly as the first call left it (zero additional rows). -/
theorem indexFile_checksum_skip :
    (∀ (emb : List Char → Except String (List Int)) (sha : List Char → String)
        (baseName : String → String) (S O : Nat) (fresh : String)
        (fs : String → Option (List Char)) (s : StoreState) (path : String)
        (bytes : List Char),
      fs path = some bytes →
      (checksumMatches (getDocument s (baseName path)) (sha bytes) = true ∨
        checksumMatches (getDocument s (chunkId (baseName path) 0)) (sha bytes) = true) →
      indexFile emb sha baseName S O fresh fs s path =
        (Except.ok ⟨baseName path, 0⟩, s)) ∧
    (∀ (emb : List Char → Except String (List Int)) (sha : List Char → String)
        (baseName : String → String) (S O : Nat) (fresh fresh' : String)
        (fs : String → Option (List Char)) (s : StoreState) (path : String)
        (bytes : List Char) (r : IndexResult) (s' : StoreState),
      baseName path ≠ "" →
      fs path = some bytes →
      indexFile emb sha baseName S O fresh fs s path = (Except.ok r, s') →
      indexFile emb sha baseName S O fresh' fs s' path =
        (Except.ok ⟨baseName path, 0⟩, s')) := by
  constructor
  · intro emb sha baseName S O fresh fs s path bytes hfs hhit
    unfold indexFile
    rw [hfs]
    simp only []
    by_cases hm1 : checksumMatches (getDocument s (baseName path)) (sha bytes) = true
    · rw [if_pos hm1]
    · rcases hhit with hhit | hhit
      · exact absurd hhit hm1
      · rw [if_neg hm1, if_pos hhit]
  · intro emb sha baseName S O fresh fresh' fs s path bytes r s' hbase hfs h1
    unfold indexFile at h1
    rw [hfs] at h1
    simp only [] at h1
    by_cases hm1 : checksumMatches (getDocument s (baseName path)) (sha bytes) = true
    · rw [if_pos hm1, Prod.mk.injEq] at h1
      obtain ⟨_, hs⟩ := h1
      subst hs
      unfold indexFile
      rw [hfs]
      simp only []
      rw [if_pos hm1]
    · rw [if_neg hm1] at h1
      by_cases hm2 : checksumMatches (getDocument s (chunkId (baseName path) 0))
          (sha bytes) = true
      · rw [if_pos hm2, Prod.mk.injEq] at h1
        obtain ⟨_, hs⟩ := h1
        subst hs
        unfold indexFile
        rw [hfs]
        simp only []
        rw [if_neg hm1, if_pos hm2]
      · rw [if_neg hm2] at h1
        by_cases hex : ((getDocument s (baseName path)).isSome ||
            (getDocument s (chunkId (baseName path) 0)).isSome) = true
        · rw [if_pos hex] at h1
          exact indexDocument_then_skip emb sha baseName S O fresh' fs path bytes _
            fresh r s' hbase hfs
            (deleteDocumentAndChunks_removes s (baseName path)).1
            (deleteDocumentAndChunks_removes s (baseName path)).2 h1
        · rw [if_neg hex] at h1
          have hex1 : getDocument s (baseName path) = none := by
            cases hg : getDocument s (baseName path) with
            | none => rfl
            | some d => rw [hg] at hex; simp at hex
          have hex2 : getDocument s (chunkId (baseName path) 0) = none := by
            cases hg : getDocument s (chunkId (baseName path) 0) with
            | none => rfl
            | some d => rw [hg] at hex; simp at hex
          exact indexDocument_then_skip emb sha baseName S O fresh' fs path bytes s
            fresh r s' hbase hfs hex1 hex2 h1

/-- Concrete one-document store whose stored checksum matches, for the
C2 witness. -/
def skipStore : StoreState :=
  ⟨1, [⟨"p", ['a'], some [("checksum", "h")], 0⟩], [("p", [0])], [], 1⟩

/-- Witness for `indexFile_checksum_skip` at a concrete store and file. -/
theorem indexFile_checksum_skip_witness :
    ((fun _ : String => some ['a']) "p" = some ['a'] ∧
      checksumMatches (getDocument skipStore "p") "h" = true) ∧
    indexFile (fun _ => Except.ok [(0 : Int)]) (fun _ => "h") (fun p => p) 10 2 "u"
        (fun _ => some ['a']) skipStore "p" = (Except.ok ⟨"p", 0⟩, skipStore) :=
  ⟨⟨rfl, by decide⟩,
    indexFile_checksum_skip.1 (fun _ => Except.ok [(0 : Int)]) (fun _ => "h") (fun p => p)
      10 2 "u" (fun _ => some ['a']) skipStore "p" ['a'] rfl (Or.inl (by decide))⟩

/-! ## Claim C10: chunk metadata is built in fresh maps

Go maps are references, so the fact that Index copies the caller
metadata into a fresh map (goldie.go:153-154) before adding the reserved
chunk keys (goldie.go:155-157) is a statement about aliasing. This
section embeds exactly those lines with the map references made
explicit: a heap of map cells, the caller metadata as a cell reference,
and one fresh cell allocated per chunk. -/

/-- Heap of Go string maps: one cell per allocated map, the index being
the reference. -/
structure MapHeap where
  cells : List Metadata
deriving DecidableEq

/-- Dereference a map. -/
def heapRead (h : MapHeap) (r : Nat) : Metadata := h.cells.getD r []

/-- In-place update of a map cell. -/
def heapWrite (h : MapHeap) (r : Nat) (m : Metadata) : MapHeap := ⟨h.cells.set r m⟩

/-- `make(map[string]string)`: allocate a fresh cell. -/
def heapAlloc (h : MapHeap) (m : Metadata) : Nat × MapHeap :=
  (h.cells.length, ⟨h.cells ++ [m]⟩)

/-- maps.Copy(dst, src): set every source entry in dst, in order. -/
def mdCopyInto (dst src : Metadata) : Metadata :=
  src.foldl (fun d kv => mdSet d kv.1 kv.2) dst

/-- One chunk metadata construction (goldie.go:153-157):
`chunkMeta := make(map[string]string)`, `maps.Copy(chunkMeta, metadata)`
(a nil caller map copies nothing), then the three reserved keys are
assigned in place. Returns the reference of the fresh map. -/
def buildChunkMeta (h : MapHeap) (mdRef : Option Nat) (id : String) (i n : Nat) :
    Nat × MapHeap :=
  let (r, h1) := heapAlloc h []
  let h2 := match mdRef with
    | none => h1
    | some src => heapWrite h1 r (mdCopyInto (heapRead h1 r) (heapRead h1 src))
  let h3 := heapWrite h2 r (mdSet (heapRead h2 r) "parent_id" id)
  let h4 := heapWrite h3 r (mdSet (heapRead h3 r) "chunk_index" (toString i))
  let h5 := heapWrite h4 r (mdSet (heapRead h4 r) "total_chunks" (toString n))
  (r, h5)

/-- The metadata side of the chunk loop of Index (goldie.go:150-158): a
fresh chunk metadata per chunk of the content. -/
def indexChunkMetaRefs (h : MapHeap) (mdRef : Option Nat) (id : String) (S O : Nat)
    (content : List Char) : List Nat × MapHeap :=
  let n := (chunkText S O content).length
  (List.range n).foldl
    (fun acc i =>
      let p := buildChunkMeta acc.2 mdRef id i n
      (acc.1 ++ [p.1], p.2))
    ([], h)

theorem buildChunkMeta_fst (h : MapHeap) (mdRef : Option Nat) (id : String) (i n : Nat) :
    (buildChunkMeta h mdRef id i n).1 = h.cells.length := rfl

theorem buildChunkMeta_cells_length (h : MapHeap) (mdRef : Option Nat) (id : String)
    (i n : Nat) :
    (buildChunkMeta h mdRef id i n).2.cells.length = h.cells.length + 1 := by
  cases mdRef <;>
    simp [buildChunkMeta, heapAlloc, heapWrite, List.length_set, List.length_append]

theorem buildChunkMeta_read_lt (h : MapHeap) (mdRef : Option Nat) (id : String)
    (i n : Nat) (x : Nat) (hx : x < h.cells.length) :
    heapRead (buildChunkMeta h mdRef id i n).2 x = heapRead h x := by
  have hne : h.cells.length ≠ x := by omega
  cases mdRef with
  | none =>
    simp only [buildChunkMeta, heapAlloc]
    unfold heapRead heapWrite
    simp only [List.getD_eq_getElem?_getD]
    rw [List.getElem?_set_ne hne, List.getElem?_set_ne hne, List.getElem?_set_ne hne,
      List.getElem?_append]
    rw [if_pos hx]
  | some src =>
    simp only [buildChunkMeta, heapAlloc]
    unfold heapRead heapWrite
    simp only [List.getD_eq_getElem?_getD]
    rw [List.getElem?_set_ne hne, List.getElem?_set_ne hne, List.getElem?_set_ne hne,
      List.getElem?_set_ne hne, List.getElem?_append]
    rw [if_pos hx]

theorem buildChunkMeta_read_new (h : MapHeap) (mdRef : Option Nat) (id : String)
    (i n : Nat) :
    mdLookup (heapRead (buildChunkMeta h mdRef id i n).2 h.cells.length)
      "parent_id" = some id := by
  have hlt1 : h.cells.length < (h.cells ++ [([] : Metadata)]).length := by simp
  cases mdRef with
  | none =>
    simp only [buildChunkMeta, heapAlloc]
    unfold heapRead heapWrite
    simp only [List.getD_eq_getElem?_getD, List.length_set]
    rw [List.getElem?_set_self (by simp [List.length_set])]
    simp only [Option.getD_some]
    rw [mdLookup_set_ne _ _ _ _ (by simp)]
    rw [List.getElem?_set_self (by simp [List.length_set])]
    simp only [Option.getD_some]
    rw [mdLookup_set_ne _ _ _ _ (by simp)]
    rw [List.getElem?_set_self (by simp [List.length_set])]
    simp only [Option.getD_some]
    rw [mdLookup_set_self]
  | some src =>
    simp only [buildChunkMeta, heapAlloc]
    unfold heapRead heapWrite
    simp only [List.getD_eq_getElem?_getD, List.length_set]
    rw [List.getElem?_set_self (by simp [List.length_set])]
    simp only [Option.getD_some]
    rw [mdLookup_set_ne _ _ _ _ (by simp)]
    rw [List.getElem?_set_self (by simp [List.length_set])]
    simp only [Option.getD_some]
    rw [mdLookup_set_ne _ _ _ _ (by simp)]
    rw [List.getElem?_set_self (by simp [List.length_set])]
    simp only [Option.getD_some]
    rw [mdLookup_set_self]

theorem buildChunkMetas_fold_inv (src : Nat) (id : String) (n : Nat) (h0 : MapHeap) :
    ∀ (idxs : List Nat) (acc : List Nat) (hcur : MapHeap),
      src < hcur.cells.length →
      heapRead hcur src = heapRead h0 src →
      (∀ ref ∈ acc, ref ≠ src ∧ ref < hcur.cells.length ∧
        mdLookup (heapRead hcur ref) "parent_id" = some id) →
      src < (idxs.foldl (fun acc i =>
          let p := buildChunkMeta acc.2 (some src) id i n
          (acc.1 ++ [p.1], p.2)) (acc, hcur)).2.cells.length ∧
      heapRead (idxs.foldl (fun acc i =>
          let p := buildChunkMeta acc.2 (some src) id i n
          (acc.1 ++ [p.1], p.2)) (acc, hcur)).2 src = heapRead h0 src ∧
      ∀ ref ∈ (idxs.foldl (fun acc i =>
          let p := buildChunkMeta acc.2 (some src) id i n
          (acc.1 ++ [p.1], p.2)) (acc, hcur)).1, ref ≠ src ∧
        mdLookup (heapRead (idxs.foldl (fun acc i =>
          let p := buildChunkMeta acc.2 (some src) id i n
          (acc.1 ++ [p.1], p.2)) (acc, hcur)).2 ref) "parent_id" = some id := by
  intro idxs
  induction idxs with
  | nil =>
    intro acc hcur hsrc hread hacc
    refine ⟨hsrc, hread, ?_⟩
    intro ref href
    exact ⟨(hacc ref href).1, (hacc ref href).2.2⟩
  | cons i idxs ih =>
    intro acc hcur hsrc hread hacc
    rw [List.foldl_cons]
    simp only []
    apply ih
    · rw [buildChunkMeta_cells_length]
      omega
    · rw [buildChunkMeta_read_lt _ _ _ _ _ _ hsrc]
      exact hread
    · intro ref href
      rcases List.mem_append.mp href with href | href
      · obtain ⟨h1, h2, h3⟩ := hacc ref href
        refine ⟨h1, ?_, ?_⟩
        · rw [buildChunkMeta_cells_length]
          omega
        · rw [buildChunkMeta_read_lt _ _ _ _ _ _ h2]
          exact h3
      · rw [List.mem_singleton] at href
        subst href
        rw [buildChunkMeta_fst]
        refine ⟨by omega, ?_, buildChunkMeta_read_new hcur (some src) id i n⟩
        rw [buildChunkMeta_cells_length]
        omega

/-- C10: for a chunked Index call the three reserved chunk keys are
written into a fresh per-chunk copy of the metadata and never into the
caller map: the caller cell reads back unchanged, none of the returned
chunk metadata references is the caller reference, and each carries the
reserved parent_id key. -/
theorem index_chunk_metadata_fresh (S O : Nat) (content : List Char) (h : MapHeap)
    (src : Nat) (id : String) (hsrc : src < h.cells.length) (hlen : S < content.length) :
    heapRead (indexChunkMetaRefs h (some src) id S O content).2 src = heapRead h src ∧
    (∀ ref ∈ (indexChunkMetaRefs h (some src) id S O content).1, ref ≠ src) ∧
    (∀ ref ∈ (indexChunkMetaRefs h (some src) id S O content).1,
      mdLookup (heapRead (indexChunkMetaRefs h (some src) id S O content).2 ref)
        "parent_id" = some id) := by
  obtain ⟨h1, h2, h3⟩ := buildChunkMetas_fold_inv src id (chunkText S O content).length h
    (List.range (chunkText S O content).length) [] h hsrc rfl (by simp)
  exact ⟨h2, fun ref href => (h3 ref href).1, fun ref href => (h3 ref href).2⟩

/-- Witness for `index_chunk_metadata_fresh` at a two-chunk input. -/
theorem index_chunk_metadata_fresh_witness :
    ((0 : Nat) < (⟨[[("k", "v")]]⟩ : MapHeap).cells.length ∧
      (1 : Nat) < (['a', 'b'] : List Char).length) ∧
    (heapRead (indexChunkMetaRefs ⟨[[("k", "v")]]⟩ (some 0) "d" 1 0 ['a', 'b']).2 0 =
        heapRead ⟨[[("k", "v")]]⟩ 0 ∧
      (∀ ref ∈ (indexChunkMetaRefs ⟨[[("k", "v")]]⟩ (some 0) "d" 1 0 ['a', 'b']).1,
        ref ≠ 0) ∧
      (∀ ref ∈ (indexChunkMetaRefs ⟨[[("k", "v")]]⟩ (some 0) "d" 1 0 ['a', 'b']).1,
        mdLookup (heapRead (indexChunkMetaRefs ⟨[[("k", "v")]]⟩ (some 0) "d" 1 0
          ['a', 'b']).2 ref) "parent_id" = some "d")) :=
  ⟨⟨by decide, by decide⟩,
    index_chunk_metadata_fresh 1 0 ['a', 'b'] ⟨[[("k", "v")]]⟩ 0 "d" (by decide) (by decide)⟩
